import Mathlib

/-!
Verification of the ade-bench core components against their sources.

The main embedding target is `shared/scripts/fuzzy_compare.py`: the functions
`_is_numeric_series`, `match_columns` and `compare` are translated below into
computable Lean functions over an explicit tabular data model.

Modelling conventions for the tabular data:
* pandas `DataFrame`s are modelled as ordered lists of named columns (`DF`),
  each column holding a homogeneous list of values (`ColVals`): either all
  numeric or all string.  This matches the program's external interface
  (gold CSVs are loaded column-typed; candidate data comes from a typed
  database result set), so mixed-dtype object columns and NaN/None values
  are outside the model.
* Python / numpy floats are modelled as rationals (`ℚ`).  The tolerance
  check `|a - b| <= atol + rtol * |b|` of `pd.testing.assert_series_equal`
  is computed in cleared-denominator integer form (`closeQ`) so that it
  evaluates inside the kernel; the lemma `closeQ_iff` proves it equal to
  the textbook rational formula with `atol = rtol = 1/100000`.
* pandas' int64/float64 dtype distinction is dropped: for homogeneous
  numeric columns every verdict of `compare` is unchanged by it, because a
  sorted-value equality that pandas misses on dtype grounds is recovered by
  the numeric-tolerance branch on the same candidate column.
* sorting (`Series.sort_values`, `DataFrame.sort_values`, Python `sorted`)
  is modelled with `List.insertionSort`.  All verdict-relevant sorts are
  over relations that are antisymmetric on the sorted data, where every
  sorting algorithm produces the same output.
* an uncaught Python exception inside `compare` (pandas raises `ValueError`
  on `sort_values` when the post-match rename produced a duplicate column
  label) is modelled as the `.error` case of the returned `Except`.
-/

namespace ADEBench

namespace FuzzyCompare

/-- A single cell value: numeric (Python int/float, modelled as ℚ) or string. -/
inductive Val where
  | num (q : ℚ)
  | str (s : String)
deriving DecidableEq

/-- The values of one homogeneous column. -/
inductive ColVals where
  | nums (vs : List ℚ)
  | strs (vs : List String)
deriving DecidableEq

/-- A named column. -/
structure Col where
  name : String
  vals : ColVals
deriving DecidableEq

/-- A data frame: an ordered list of named columns. -/
structure DF where
  cols : List Col
deriving DecidableEq

def ColVals.length : ColVals → Nat
  | .nums vs => vs.length
  | .strs vs => vs.length

/-- `_is_numeric_series` on a homogeneous column: numeric dtype iff the
column holds numbers. -/
def ColVals.isNumeric : ColVals → Bool
  | .nums _ => true
  | .strs _ => false

/-- Value of a column at a row index (with a type-respecting default,
only used in bounds that the callers establish). -/
def ColVals.getV : ColVals → Nat → Val
  | .nums vs, i => .num (vs.getD i 0)
  | .strs vs, i => .str (vs.getD i "")

/-- Code-point comparison of characters, as in Python string ordering. -/
def charLe (a b : Char) : Bool := a.toNat ≤ b.toNat

/-- Lexicographic lifting of a comparison to lists. -/
def lexLe {α : Type} [DecidableEq α] (le : α → α → Bool) :
    List α → List α → Bool
  | [], _ => true
  | _ :: _, [] => false
  | a :: as, b :: bs => if a = b then lexLe le as bs else le a b

/-- Lexicographic comparison of character lists (Python `str` ordering). -/
def charsLe (as bs : List Char) : Bool := lexLe charLe as bs

/-- Python string `<=`: lexicographic on code points. -/
def strLe (a b : String) : Bool := charsLe a.data b.data

/-- Ordering used to sort the values of one column (`Series.sort_values`). -/
def valLe : Val → Val → Bool
  | .num a, .num b => a ≤ b
  | .str a, .str b => strLe a b
  | .num _, .str _ => true
  | .str _, .num _ => false

/-- Ascending sort of numeric values. -/
def sortedQ (vs : List ℚ) : List ℚ := List.insertionSort (fun a b => a ≤ b) vs

/-- Ascending sort of string values. -/
def sortedStr (vs : List String) : List String :=
  List.insertionSort (fun a b => strLe a b = true) vs

/-- `Series.sort_values().reset_index(drop=True)`: ascending value sort. -/
def ColVals.sortVals : ColVals → ColVals
  | .nums vs => .nums (sortedQ vs)
  | .strs vs => .strs (sortedStr vs)

def DF.nrows (df : DF) : Nat :=
  match df.cols with
  | [] => 0
  | c :: _ => c.vals.length

def DF.ncols (df : DF) : Nat := df.cols.length

def DF.names (df : DF) : List String := df.cols.map Col.name

/-- pandas `DataFrame.empty`: true iff either axis has length zero. -/
def DF.isEmptyDF (df : DF) : Bool := df.cols.isEmpty || df.nrows == 0

/-- Well-formedness of the model: all columns have the frame's row count and
column names are distinct (pandas frames with duplicate labels are out of
scope except where `compare` itself creates them by renaming). -/
def DF.wf (df : DF) : Prop :=
  (∀ c ∈ df.cols, c.vals.length = df.nrows) ∧ df.names.Nodup

instance (df : DF) : Decidable df.wf := by
  unfold DF.wf
  infer_instance

/-- Type compatibility test of `match_columns`:
`gold.dtype == comp.dtype or (both numeric)`.  On homogeneous columns this
is exactly: both numeric, or both string. -/
def typesOk : ColVals → ColVals → Bool
  | .nums _, .nums _ => true
  | .strs _, .strs _ => true
  | _, _ => false

/-- The element tolerance of `pd.testing.assert_series_equal(..., atol=1e-5,
rtol=1e-5)`, i.e. `|a - b| <= atol + rtol * |b|`, computed in
cleared-denominator integer form (see `closeQ_iff`). -/
def closeQ (a b : ℚ) : Bool :=
  decide (100000 * |a.num * (b.den : ℤ) - b.num * (a.den : ℤ)|
    ≤ ((b.den : ℤ) + |b.num|) * (a.den : ℤ))

/-- Element-wise tolerance comparison of two equally long value lists. -/
def allClose : List ℚ → List ℚ → Bool
  | [], [] => true
  | a :: as, b :: bs => closeQ a b && allClose as bs
  | _, _ => false

/-- The approximate-match branch of `match_columns`: both columns numeric and
their independently sorted values element-wise within tolerance. -/
def tolMatch : ColVals → ColVals → Bool
  | .nums gs, .nums cs => allClose (sortedQ gs) (sortedQ cs)
  | _, _ => false

/-- One candidate-column test of `match_columns`: type compatibility, then
exact sorted-value equality, then the numeric tolerance match. -/
def matchesCol (g c : ColVals) : Bool :=
  typesOk g c && (decide (g.sortVals = c.sortVals) || tolMatch g c)

/-- The inner loop of `match_columns`: scan the candidate columns in order,
skip the ones already claimed, and return the first that matches. -/
def findMatch (g : Col) (mapped : List String) : List Col → Option String
  | [] => none
  | c :: rest =>
      if mapped.contains c.name then findMatch g mapped rest
      else if matchesCol g.vals c.vals then some c.name
      else findMatch g mapped rest

/-- The outer loop of `match_columns`, accumulating the
`{comp_col: gold_col}` mapping as an association list. -/
def matchColumnsAux (comps : List Col) :
    List Col → List (String × String) → List (String × String)
  | [], acc => acc
  | g :: gs, acc =>
      match findMatch g (acc.map Prod.fst) comps with
      | some cn => matchColumnsAux comps gs (acc ++ [(cn, g.name)])
      | none => matchColumnsAux comps gs acc

/-- `sorted(gold_df.columns)`: the gold columns in lexicographic name order. -/
def sortColsByName (cols : List Col) : List Col :=
  List.insertionSort (fun a b => strLe a.name b.name = true) cols

/-- `match_columns(gold_df, comp_df)`: returns the column mapping, or the
`ValueError` message when some gold column found no match. -/
def match_columns (gold comp : DF) : Except String (List (String × String)) :=
  let mapping := matchColumnsAux comp.cols (sortColsByName gold.cols) []
  let unmapped := gold.names.filter (fun n => !(mapping.map Prod.snd).contains n)
  if unmapped.isEmpty then .ok mapping
  else .error ("Could not match gold columns: " ++ String.intercalate ", " unmapped)

/-- Lookup of a candidate column name in the `{comp_col: gold_col}` mapping. -/
def lookupMapping (m : List (String × String)) (n : String) : Option String :=
  (m.find? (fun p => p.1 == n)).map Prod.snd

/-- Lexicographic row comparison used by `DataFrame.sort_values(by=cols)`
when `by` lists every column of the frame. -/
def rowLe (a b : List Val) : Bool := lexLe valLe a b

/-- The rows of a list of columns (all of row count `n`). -/
def toRows (cs : List Col) (n : Nat) : List (List Val) :=
  (List.range n).map (fun i => cs.map (fun c => c.vals.getV i))

/-- Canonical row sort of a frame given as a row list. -/
def sortRows (rows : List (List Val)) : List (List Val) :=
  List.insertionSort (fun a b => rowLe a b = true) rows

/-- Column `j` of a frame given as a row list. -/
def colOf (rows : List (List Val)) (j : Nat) : List Val :=
  rows.map (fun r => r.getD j (.num 0))

/-- Element-wise tolerance comparison of two value columns (numeric only, as
in the final per-column `assert_series_equal` of `compare`). -/
def valsClose : List Val → List Val → Bool
  | [], [] => true
  | .num a :: as, .num b :: bs => closeQ a b && valsClose as bs
  | _, _ => false

/-- `diff_mask.idxmax()`: index of the first differing row. -/
def firstDiffIdx (gs cs : List Val) : Nat :=
  (gs.zip cs).findIdx (fun p => p.1 ≠ p.2)

/-- The final column-by-column scan of `compare`: report the first column
(and first row) still differing after the per-column tolerance retry. -/
def scanCols (goldSel : List Col) (goldRows compRows : List (List Val)) :
    List (Nat × String) → Except String (Bool × Option String)
  | [] => .ok (true, none)
  | (j, n) :: rest =>
      let gj := colOf goldRows j
      let cj := colOf compRows j
      if gj = cj then scanCols goldSel goldRows compRows rest
      else if ((goldSel.getD j ⟨"", .strs []⟩).vals.isNumeric && valsClose gj cj) then
        scanCols goldSel goldRows compRows rest
      else
        .ok (false, some ("Column " ++ n ++ " differs at row "
          ++ toString (firstDiffIdx gj cj)))

/-- `compare(gold_df, comp_df)` from `fuzzy_compare.py`.

Returns `.ok (is_match, error_message)`; `.error` models the uncaught
`ValueError` that pandas raises in `sort_values` when the rename step
produced a duplicate column label (an unmatched candidate column bearing a
gold column's name). -/
def compare (gold comp : DF) : Except String (Bool × Option String) :=
  if gold.isEmptyDF && comp.isEmptyDF then .ok (true, none)
  else if gold.nrows ≠ comp.nrows then
    .ok (false, some "Row count mismatch between gold and result")
  else if comp.ncols < gold.ncols then
    .ok (false, some "Result has fewer columns than expected")
  else
    match match_columns gold comp with
    | .error e => .ok (false, some e)
    | .ok mapping =>
      let renamed := comp.cols.map (fun c =>
        match lookupMapping mapping c.name with
        | some gn => { c with name := gn }
        | none => c)
      let colNames := List.insertionSort (fun a b => strLe a b = true) gold.names
      if colNames.any (fun n => 1 < (renamed.filter (fun c => c.name == n)).length)
      then .error "The column label is not unique"
      else
        let compSel := colNames.map (fun n =>
          (renamed.find? (fun c => c.name == n)).getD ⟨n, .nums []⟩)
        let goldSel := colNames.map (fun n =>
          (gold.cols.find? (fun c => c.name == n)).getD ⟨n, .nums []⟩)
        let n := gold.nrows
        let goldRows := sortRows (toRows goldSel n)
        let compRows := sortRows (toRows compSel n)
        if goldRows = compRows then .ok (true, none)
        else scanCols goldSel goldRows compRows colNames.enum

/-- The matched/mismatched verdict of a comparison run (`none` when the run
raised). -/
def verdict : Except String (Bool × Option String) → Option Bool
  | .ok (b, _) => some b
  | .error _ => none

/-- Row permutation of a column: row `i` of the result is row `σ i` of the
input (`σ` is a permutation of `range nrows`). -/
def ColVals.permute (σ : List Nat) : ColVals → ColVals
  | .nums vs => .nums (σ.map (fun i => vs.getD i 0))
  | .strs vs => .strs (σ.map (fun i => vs.getD i ""))

/-- Permute the rows of a whole frame. -/
def DF.permuteRows (σ : List Nat) (df : DF) : DF :=
  ⟨df.cols.map (fun c => { c with vals := c.vals.permute σ })⟩

/-- Rename the columns of a frame. -/
def DF.renameCols (f : String → String) (df : DF) : DF :=
  ⟨df.cols.map (fun c => { c with name := f c.name })⟩

/-- True iff the comparison run raised (the duplicate-label case). -/
def isErr : Except String (Bool × Option String) → Bool
  | .error _ => true
  | .ok _ => false

end FuzzyCompare

namespace Scheduler

/-!
The duration-hint scheduler lives in `ade_bench/harness.py`
(`Harness._load_duration_hints` and the sort inside `Harness._execute_tasks`),
which is not among the provided sources; only its tests
(`tests/test_duration_hints.py`) are.  The definitions below are therefore
modelled from the spec (and agree with the reference computation that the
tests perform inline).
-/

/-- One schedulable unit of work: `(task_path.name, variant_key)`; the
config component of the source triple plays no role in ordering. -/
structure WorkItem where
  pathName : String
  taskKey : String
deriving DecidableEq

/-- Modelled from the spec: the derived task identifier of a work item is
`task_path.name` when the variant key is the sentinel `"base"`, else
`"{task_path.name}.{variant_key}"`.  (`Harness._execute_tasks` is not under
the provided sources.) -/
def taskIdOf (w : WorkItem) : String :=
  if w.taskKey = "base" then w.pathName else w.pathName ++ "." ++ w.taskKey

/-- Insert one `(task_id, runtime_ms)` record into the accumulated hint
mapping, keeping the maximum runtime for an already-present identifier. -/
def addHint : List (String × Nat) → String × Nat → List (String × Nat)
  | [], r => [r]
  | (t, m) :: rest, r =>
      if t = r.1 then (t, max m r.2) :: rest else (t, m) :: addHint rest r

/-- Modelled from the spec: `Harness._load_duration_hints` builds a
`task_id -> runtime_ms` mapping from the historical run records, taking the
maximum observed runtime when a task identifier appears in several records.
(`harness.py` is not under the provided sources; only its tests are.) -/
def load_hints (records : List (String × Nat)) : List (String × Nat) :=
  records.foldl addHint []

/-- Lookup in a hint mapping. -/
def hintOf (hints : List (String × Nat)) (tid : String) : Option Nat :=
  (hints.find? (fun p => p.1 == tid)).map Prod.snd

/-- Spec-side reference value, stated in the words of the spec: the hint for
a task identifier is the maximum of the `runtime_ms` values of the records
bearing that identifier (absent when there are none).  Used only to compare
`load_hints` against the specification. -/
def maxRuntimeSpec (records : List (String × Nat)) (tid : String) : Option Nat :=
  match (records.filter (fun p => p.1 == tid)).map Prod.snd with
  | [] => none
  | m :: ms => some (ms.foldl max m)

/-- The sort key of a work item: its hint, `none` meaning `float("inf")`. -/
def hintKey (hints : List (String × Nat)) (w : WorkItem) : Option Nat :=
  hintOf hints (taskIdOf w)

/-- Descending comparison of sort keys, `none` being infinity: `keyGe a b`
says `a`'s duration is at least `b`'s. -/
def keyGe : Option Nat → Option Nat → Bool
  | none, _ => true
  | some _, none => false
  | some a, some b => b ≤ a

/-- Modelled from the spec: the scheduler orders work items with Python's
stable `sorted(..., key=lambda t: hints.get(task_id(t), float("inf")),
reverse=True)`.  A stable descending sort is modelled by `insertionSort`
over `keyGe`, whose output is the unique sorted-and-stable arrangement, so
the choice of stable sorting algorithm is immaterial. -/
def order (items : List WorkItem) (hints : List (String × Nat)) : List WorkItem :=
  List.insertionSort
    (fun a b => keyGe (hintKey hints a) (hintKey hints b) = true) items

end Scheduler

namespace Agents

/-- A task container as seen by the completion predicate: a mapping from
file paths to captured output lines.  The predicate under verification
ignores it entirely. -/
structure Container where
  files : String → List String

/-- `AbstractInstalledAgent._is_agent_output_complete`: returns `False`
unconditionally (rely solely on process exit, per its docstring). -/
def AbstractInstalledAgent.isAgentOutputComplete
    (_container : Container) (_outputFile : String) : Bool :=
  false

/-- `ClaudeCodeAgent` defines no `_is_agent_output_complete` of its own, so
it inherits the base-class method unchanged. -/
def ClaudeCodeAgent.isAgentOutputComplete : Container → String → Bool :=
  AbstractInstalledAgent.isAgentOutputComplete

/-- Modelled from the spec: one well-formed terminal marker of the Claude
Code stream-json output protocol (a complete final-result record on its own
line).  No parser for it exists under the provided sources; this concrete
record follows the spec's description of "one well-formed final-result
record type". -/
def wellFormedResultLine : String :=
  "\x7b\"type\":\"result\",\"subtype\":\"success\",\"is_error\":false\x7d"

/-- Modelled from the spec: a truncated/partial terminal marker (a prefix
of a final-result record, as left by a partial write). -/
def truncatedResultLine : String := "\x7b\"type\":\"result\",\"subt"

/-- Modelled from the spec: whether a tail window of captured output lines
contains a well-formed terminal marker. -/
def containsWellFormedMarker (tailWindow : List String) : Bool :=
  tailWindow.contains wellFormedResultLine

/-- Outcome of one dispatched command in the session driver state machine. -/
inductive SessionOutcome where
  | completeByExit
  | completeByPredicate
  | timedOut
deriving DecidableEq

/-- Modelled from the spec: one polling decision of the SessionDriver state
machine (`TmuxSession` is not under the provided sources).  Process exit
always wins; the completion predicate may end the wait early; the timeout
fires when `max_timeout` is exceeded with neither observed; no completion
is reported before `min_timeout`. -/
def sessionPoll (exited predicateResult : Bool)
    (elapsed minTimeout maxTimeout : Nat) : Option SessionOutcome :=
  if elapsed < minTimeout then none
  else if exited then some .completeByExit
  else if predicateResult then some .completeByPredicate
  else if maxTimeout ≤ elapsed then some .timedOut
  else none

/-- Session exceptions visible to `perform_task`: `TimeoutError` (the only
kind its `try` block catches) and everything else. -/
inductive SessionExc where
  | timeoutExc
  | otherExc (msg : String)
deriving DecidableEq

/-- `FailureMode` values relevant to `perform_task` (the full enum lives in
`harness_models.py`, outside the provided sources; only the constructors
used by `perform_task` and its callers are modelled). -/
inductive FailureMode where
  | agentSetupTimeout
  | agentTimeout
deriving DecidableEq

/-- The metrics extracted from agent output by `_parse_agent_output`. -/
structure AgentMetrics where
  inputTokens : Nat
  outputTokens : Nat
  cacheTokens : Nat
  numTurns : Nat
  runtimeMs : Nat
  costUsd : ℚ
deriving DecidableEq

/-- `AgentResult` as constructed by `perform_task` (failure mode defaults
to none on the success path). -/
structure AgentResult where
  inputTokens : Nat
  outputTokens : Nat
  cacheTokens : Nat
  numTurns : Nat
  runtimeMs : Nat
  costUsd : ℚ
  failureMode : Option FailureMode
deriving DecidableEq

/-- The result `perform_task` returns when environment setup times out:
all metrics zero and the distinguished setup-timeout failure mode. -/
def setupTimeoutResult : AgentResult :=
  ⟨0, 0, 0, 0, 0, 0, some .agentSetupTimeout⟩

/-- The effects of the tmux session as observed by `perform_task`, phase by
phase: sourcing the env-setup file, the optional dbt-MCP setup script, the
agent command itself, and the captured agent output read back at the end. -/
structure SessionModel where
  envSetup : Except SessionExc Unit
  mcpSetup : Except SessionExc Unit
  agentRun : Except SessionExc Unit
  capturedOutput : String

/-- `AbstractInstalledAgent.perform_task`: the env-setup phase (and, with
MCP enabled, the MCP-setup phase) runs inside a `try` whose
`except TimeoutError` returns `setupTimeoutResult`; other exceptions
propagate.  The agent command runs outside that `try`, so any exception it
raises propagates; on success the metrics parsed from the captured output
are returned with no failure mode. -/
def perform_task (useMcp : Bool) (parse : String → AgentMetrics)
    (s : SessionModel) : Except SessionExc AgentResult :=
  match s.envSetup with
  | .error .timeoutExc => .ok setupTimeoutResult
  | .error e => .error e
  | .ok _ =>
    match (if useMcp then s.mcpSetup else .ok ()) with
    | .error .timeoutExc => .ok setupTimeoutResult
    | .error e => .error e
    | .ok _ =>
      match s.agentRun with
      | .error e => .error e
      | .ok _ =>
        let m := parse s.capturedOutput
        .ok ⟨m.inputTokens, m.outputTokens, m.cacheTokens, m.numTurns,
          m.runtimeMs, m.costUsd, none⟩

end Agents

end ADEBench

/-! ## Order and sorting lemmas -/

namespace ADEBench

namespace FuzzyCompare

theorem charLe_total (a b : Char) : charLe a b = true ∨ charLe b a = true := by
  simp only [charLe, decide_eq_true_eq]
  exact Nat.le_total a.toNat b.toNat

theorem charLe_trans {a b c : Char} (h₁ : charLe a b = true)
    (h₂ : charLe b c = true) : charLe a c = true := by
  simp only [charLe, decide_eq_true_eq] at h₁ h₂ ⊢
  exact Nat.le_trans h₁ h₂

theorem charLe_antisymm {a b : Char} (h₁ : charLe a b = true)
    (h₂ : charLe b a = true) : a = b := by
  simp only [charLe, decide_eq_true_eq] at h₁ h₂
  exact Char.eq_of_val_eq (UInt32.ext (Nat.le_antisymm h₁ h₂))

theorem lexLe_total {α : Type} [DecidableEq α] (le : α → α → Bool)
    (htot : ∀ a b, le a b = true ∨ le b a = true) :
    ∀ as bs, lexLe le as bs = true ∨ lexLe le bs as = true := by
  intro as
  induction as with
  | nil => intro bs; left; rfl
  | cons a as ih =>
    intro bs
    cases bs with
    | nil => right; rfl
    | cons b bs =>
      by_cases hab : a = b
      · subst hab
        simpa [lexLe] using ih bs
      · have hba : ¬ b = a := fun h => hab h.symm
        simpa [lexLe, hab, hba] using htot a b

theorem lexLe_trans {α : Type} [DecidableEq α] (le : α → α → Bool)
    (htrans : ∀ a b c, le a b = true → le b c = true → le a c = true)
    (hanti : ∀ a b, le a b = true → le b a = true → a = b) :
    ∀ as bs cs, lexLe le as bs = true → lexLe le bs cs = true →
      lexLe le as cs = true := by
  intro as
  induction as with
  | nil => intro bs cs _ _; rfl
  | cons a as ih =>
    intro bs cs h₁ h₂
    cases bs with
    | nil => simp [lexLe] at h₁
    | cons b bs =>
      cases cs with
      | nil => simp [lexLe] at h₂
      | cons c cs =>
        by_cases hab : a = b
        · subst hab
          simp only [lexLe, if_pos rfl] at h₁
          by_cases hbc : a = c
          · subst hbc
            simp only [lexLe, if_pos rfl] at h₂ ⊢
            exact ih bs cs h₁ h₂
          · simpa [lexLe, hbc] using h₂
        · simp only [lexLe, if_neg hab] at h₁
          by_cases hbc : b = c
          · subst hbc
            simpa [lexLe, hab] using h₁
          · simp only [lexLe, if_neg hbc] at h₂
            have hac : le a c = true := htrans a b c h₁ h₂
            by_cases h : a = c
            · subst h
              exact absurd (hanti a b h₁ h₂) hab
            · simpa [lexLe, h] using hac

theorem lexLe_antisymm {α : Type} [DecidableEq α] (le : α → α → Bool)
    (hanti : ∀ a b, le a b = true → le b a = true → a = b) :
    ∀ as bs, lexLe le as bs = true → lexLe le bs as = true → as = bs := by
  intro as
  induction as with
  | nil =>
    intro bs _ h₂
    cases bs with
    | nil => rfl
    | cons b bs => simp [lexLe] at h₂
  | cons a as ih =>
    intro bs h₁ h₂
    cases bs with
    | nil => simp [lexLe] at h₁
    | cons b bs =>
      by_cases hab : a = b
      · subst hab
        simp only [lexLe, if_pos rfl] at h₁ h₂
        rw [ih bs h₁ h₂]
      · have hba : ¬ b = a := fun h => hab h.symm
        simp only [lexLe, if_neg hab] at h₁
        simp only [lexLe, if_neg hba] at h₂
        exact absurd (hanti a b h₁ h₂) hab

theorem strLe_total (a b : String) : strLe a b = true ∨ strLe b a = true :=
  lexLe_total charLe charLe_total a.data b.data

theorem strLe_trans {a b c : String} (h₁ : strLe a b = true)
    (h₂ : strLe b c = true) : strLe a c = true :=
  lexLe_trans charLe (fun _ _ _ => charLe_trans) (fun _ _ => charLe_antisymm)
    a.data b.data c.data h₁ h₂

theorem strLe_antisymm {a b : String} (h₁ : strLe a b = true)
    (h₂ : strLe b a = true) : a = b :=
  String.ext
    (lexLe_antisymm charLe (fun _ _ => charLe_antisymm) a.data b.data h₁ h₂)

theorem valLe_total (a b : Val) : valLe a b = true ∨ valLe b a = true := by
  cases a with
  | num qa =>
    cases b with
    | num qb => simpa [valLe, decide_eq_true_eq] using le_total qa qb
    | str sb => left; rfl
  | str sa =>
    cases b with
    | num qb => right; rfl
    | str sb => simpa [valLe] using strLe_total sa sb

theorem valLe_trans {a b c : Val} (h₁ : valLe a b = true)
    (h₂ : valLe b c = true) : valLe a c = true := by
  cases a with
  | num qa =>
    cases c with
    | str sc => rfl
    | num qc =>
      cases b with
      | num qb =>
        simp only [valLe, decide_eq_true_eq] at h₁ h₂ ⊢
        exact le_trans h₁ h₂
      | str sb => simp [valLe] at h₂
  | str sa =>
    cases b with
    | num qb => simp [valLe] at h₁
    | str sb =>
      cases c with
      | num qc => simp [valLe] at h₂
      | str sc =>
        simp only [valLe] at h₁ h₂ ⊢
        exact strLe_trans h₁ h₂

theorem valLe_antisymm {a b : Val} (h₁ : valLe a b = true)
    (h₂ : valLe b a = true) : a = b := by
  cases a with
  | num qa =>
    cases b with
    | num qb =>
      simp only [valLe, decide_eq_true_eq] at h₁ h₂
      exact congrArg Val.num (le_antisymm h₁ h₂)
    | str sb => simp [valLe] at h₂
  | str sa =>
    cases b with
    | num qb => simp [valLe] at h₁
    | str sb =>
      simp only [valLe] at h₁ h₂
      exact congrArg Val.str (strLe_antisymm h₁ h₂)

theorem rowLe_total (a b : List Val) : rowLe a b = true ∨ rowLe b a = true :=
  lexLe_total valLe valLe_total a b

theorem rowLe_trans {a b c : List Val} (h₁ : rowLe a b = true)
    (h₂ : rowLe b c = true) : rowLe a c = true :=
  lexLe_trans valLe (fun _ _ _ => valLe_trans) (fun _ _ => valLe_antisymm)
    a b c h₁ h₂

theorem rowLe_antisymm {a b : List Val} (h₁ : rowLe a b = true)
    (h₂ : rowLe b a = true) : a = b :=
  lexLe_antisymm valLe (fun _ _ => valLe_antisymm) a b h₁ h₂

/-- Two sorted permutations of each other coincide, given antisymmetry. -/
theorem sortedEqOfPerm {α : Type} {r : α → α → Prop}
    (anti : ∀ a b, r a b → r b a → a = b) {l₁ l₂ : List α}
    (p : l₁.Perm l₂) (s₁ : l₁.Pairwise r) (s₂ : l₂.Pairwise r) : l₁ = l₂ := by
  haveI : IsAntisymm α r := ⟨anti⟩
  exact List.eq_of_perm_of_sorted p s₁ s₂

/-- `insertionSort` maps permuted inputs to the same output when the
relation is a total antisymmetric preorder. -/
theorem insertionSort_congrPerm {α : Type} (r : α → α → Prop) [DecidableRel r]
    (total : ∀ a b, r a b ∨ r b a) (htrans : ∀ a b c, r a b → r b c → r a c)
    (anti : ∀ a b, r a b → r b a → a = b) {l₁ l₂ : List α}
    (h : l₁.Perm l₂) : List.insertionSort r l₁ = List.insertionSort r l₂ := by
  haveI : IsTotal α r := ⟨total⟩
  haveI : IsTrans α r := ⟨fun a b c => htrans a b c⟩
  exact sortedEqOfPerm anti
    ((List.perm_insertionSort r l₁).trans
      (h.trans (List.perm_insertionSort r l₂).symm))
    (List.sorted_insertionSort r l₁) (List.sorted_insertionSort r l₂)

/-- `orderedInsert` is natural in a relation-preserving map. -/
theorem orderedInsert_map {α β : Type} (f : α → β) (r : β → β → Prop)
    (rr : α → α → Prop) [DecidableRel r] [DecidableRel rr]
    (h : ∀ a b, r (f a) (f b) ↔ rr a b) (a : α) (l : List α) :
    List.orderedInsert r (f a) (l.map f) = (List.orderedInsert rr a l).map f := by
  induction l with
  | nil => rfl
  | cons b bs ih =>
    by_cases hr : rr a b
    · simp [List.orderedInsert, hr, (h a b).mpr hr]
    · simp only [List.map_cons, List.orderedInsert,
        if_neg (fun hc => hr ((h a b).mp hc)), if_neg hr, List.map_cons, ih]

/-- `insertionSort` is natural in a relation-preserving map. -/
theorem insertionSort_map {α β : Type} (f : α → β) (r : β → β → Prop)
    (rr : α → α → Prop) [DecidableRel r] [DecidableRel rr]
    (h : ∀ a b, r (f a) (f b) ↔ rr a b) (l : List α) :
    List.insertionSort r (l.map f) = (List.insertionSort rr l).map f := by
  induction l with
  | nil => rfl
  | cons a l ih =>
    simp only [List.map_cons, List.insertionSort, ih]
    exact orderedInsert_map f r rr h a (List.insertionSort rr l)

/-- Reading every position of a list back off gives the list. -/
theorem map_getD_range {α : Type} (l : List α) (d : α) :
    (List.range l.length).map (fun i => l.getD i d) = l := by
  induction l with
  | nil => rfl
  | cons a l ih =>
    rw [List.length_cons, List.range_succ_eq_map, List.map_cons, List.map_map]
    have hc : ((fun i => (a :: l).getD i d) ∘ Nat.succ) = fun i => l.getD i d :=
      funext fun i => rfl
    rw [hc, ih]
    rfl

/-- Mapping `getD` over a permutation of `range` permutes the list. -/
theorem perm_map_getD {α : Type} {σ : List Nat} (l : List α) (d : α)
    (h : σ.Perm (List.range l.length)) :
    (σ.map (fun i => l.getD i d)).Perm l := by
  have h2 := h.map (fun i => l.getD i d)
  rwa [map_getD_range] at h2

/-- The integer form of the tolerance test is the textbook
`|a - b| <= atol + rtol * |b|` with `atol = rtol = 1e-5`. -/
theorem closeQ_iff (a b : ℚ) :
    closeQ a b = true ↔ |a - b| ≤ 1/100000 + 1/100000 * |b| := by
  have hda : (0:ℚ) < (a.den : ℚ) := by exact_mod_cast a.den_pos
  have hdb : (0:ℚ) < (b.den : ℚ) := by exact_mod_cast b.den_pos
  have ha : ((a.num : ℚ) / (a.den : ℚ)) = a := Rat.num_div_den a
  have hb : ((b.num : ℚ) / (b.den : ℚ)) = b := Rat.num_div_den b
  rw [closeQ, decide_eq_true_eq]
  have hint : (100000 * |a.num * (b.den : ℤ) - b.num * (a.den : ℤ)|
      ≤ ((b.den : ℤ) + |b.num|) * (a.den : ℤ))
      ↔ (100000 * |(a.num : ℚ) * (b.den : ℚ) - (b.num : ℚ) * (a.den : ℚ)|
        ≤ (((b.den : ℚ)) + |(b.num : ℚ)|) * (a.den : ℚ)) := by
    constructor
    · intro h; exact_mod_cast h
    · intro h; exact_mod_cast h
  rw [hint]
  have key : |a - b| = |(a.num : ℚ) * (b.den : ℚ) - (b.num : ℚ) * (a.den : ℚ)|
      / ((a.den : ℚ) * (b.den : ℚ)) := by
    rw [← abs_of_pos (mul_pos hda hdb), ← abs_div]
    congr 1
    conv_lhs => rw [← ha, ← hb]
    rw [div_sub_div _ _ (ne_of_gt hda) (ne_of_gt hdb)]
    ring_nf
  have keyb : |b| = |(b.num : ℚ)| / (b.den : ℚ) := by
    conv_lhs => rw [← hb]
    rw [abs_div, abs_of_pos hdb]
  rw [key, keyb]
  have hrhs : (1:ℚ)/100000 + 1/100000 * (|(b.num : ℚ)| / (b.den : ℚ))
      = ((b.den : ℚ) + |(b.num : ℚ)|) / (100000 * (b.den : ℚ)) := by
    field_simp
  rw [hrhs, div_le_div_iff₀ (mul_pos hda hdb) (by positivity)]
  constructor
  · intro h
    nlinarith [mul_le_mul_of_nonneg_right h (le_of_lt hdb)]
  · intro h
    have h2 : (100000 * |(a.num : ℚ) * (b.den : ℚ) - (b.num : ℚ) * (a.den : ℚ)|)
        * (b.den : ℚ) ≤ (((b.den : ℚ) + |(b.num : ℚ)|) * (a.den : ℚ)) * (b.den : ℚ) := by
      nlinarith [h]
    exact (mul_le_mul_right hdb).mp h2

/-- Element-wise reading of `allClose`. -/
theorem allClose_iff (xs ys : List ℚ) :
    allClose xs ys = true ↔ xs.length = ys.length ∧
      ∀ i, i < xs.length → closeQ (xs.getD i 0) (ys.getD i 0) = true := by
  induction xs generalizing ys with
  | nil =>
    cases ys with
    | nil => simp [allClose]
    | cons y ys => simp [allClose]
  | cons x xs ih =>
    cases ys with
    | nil => simp [allClose]
    | cons y ys =>
      simp only [allClose, Bool.and_eq_true, List.length_cons, ih]
      constructor
      · rintro ⟨hxy, hlen, hall⟩
        refine ⟨by omega, ?_⟩
        intro i hi
        cases i with
        | zero => exact hxy
        | succ j => exact hall j (by omega)
      · rintro ⟨hlen, hall⟩
        refine ⟨hall 0 (by omega), by omega, ?_⟩
        intro j hj
        exact hall (j + 1) (by omega)

/-- The length of a permuted column. -/
theorem ColVals.permute_length (v : ColVals) (σ : List Nat) :
    (v.permute σ).length = σ.length := by
  cases v <;> simp [ColVals.permute, ColVals.length]

/-- Permuting the rows of a column does not change its sorted values. -/
theorem sortVals_permute (v : ColVals) {σ : List Nat}
    (h : σ.Perm (List.range v.length)) :
    (v.permute σ).sortVals = v.sortVals := by
  cases v with
  | nums vs =>
    have hp : (σ.map (fun i => vs.getD i 0)).Perm vs :=
      perm_map_getD vs 0 (by simpa [ColVals.length] using h)
    simp only [ColVals.permute, ColVals.sortVals, sortedQ]
    rw [insertionSort_congrPerm (fun a b : ℚ => a ≤ b) le_total
      (fun _ _ _ => le_trans) (fun _ _ => le_antisymm) hp]
  | strs vs =>
    have hp : (σ.map (fun i => vs.getD i "")).Perm vs :=
      perm_map_getD vs "" (by simpa [ColVals.length] using h)
    simp only [ColVals.permute, ColVals.sortVals, sortedStr]
    rw [insertionSort_congrPerm (fun a b : String => strLe a b = true)
      (fun x y => strLe_total x y) (fun _ _ _ => strLe_trans)
      (fun _ _ => strLe_antisymm) hp]

/-- Permuting rows preserves the numeric/string kind of a column. -/
theorem ColVals.permute_isNumeric (v : ColVals) (σ : List Nat) :
    (v.permute σ).isNumeric = v.isNumeric := by
  cases v <;> rfl

/-- `typesOk` only depends on the kinds, hence is invariant under row
permutation of either argument. -/
theorem typesOk_permute (g c : ColVals) (σ τ : List Nat) :
    typesOk (g.permute σ) (c.permute τ) = typesOk g c := by
  cases g <;> cases c <;> rfl

/-- `tolMatch` is invariant under row permutation of both arguments. -/
theorem tolMatch_permute (g c : ColVals) {σ τ : List Nat}
    (hσ : σ.Perm (List.range g.length)) (hτ : τ.Perm (List.range c.length)) :
    tolMatch (g.permute σ) (c.permute τ) = tolMatch g c := by
  cases g with
  | nums gs =>
    cases c with
    | nums cs =>
      simp only [ColVals.permute, tolMatch, sortedQ]
      rw [insertionSort_congrPerm (fun a b : ℚ => a ≤ b) le_total
        (fun _ _ _ => le_trans) (fun _ _ => le_antisymm)
        (perm_map_getD gs 0 (by simpa [ColVals.length] using hσ))]
      rw [insertionSort_congrPerm (fun a b : ℚ => a ≤ b) le_total
        (fun _ _ _ => le_trans) (fun _ _ => le_antisymm)
        (perm_map_getD cs 0 (by simpa [ColVals.length] using hτ))]
    | strs cs => rfl
  | strs gs =>
    cases c <;> rfl

/-- `matchesCol` is invariant under row permutation of both arguments. -/
theorem matchesCol_permute (g c : ColVals) {σ τ : List Nat}
    (hσ : σ.Perm (List.range g.length)) (hτ : τ.Perm (List.range c.length)) :
    matchesCol (g.permute σ) (c.permute τ) = matchesCol g c := by
  rw [matchesCol, matchesCol, typesOk_permute, sortVals_permute g hσ,
    sortVals_permute c hτ, tolMatch_permute g c hσ hτ]

/-- `matchesCol` is reflexive. -/
theorem matchesCol_refl (v : ColVals) : matchesCol v v = true := by
  rw [matchesCol]
  have h1 : typesOk v v = true := by cases v <;> rfl
  simp [h1]

/-- The rows of a single numeric column. -/
theorem toRows_single (name : String) (vs : List ℚ) :
    toRows [⟨name, .nums vs⟩] vs.length = vs.map (fun q => [Val.num q]) := by
  rw [toRows]
  have hc : (fun i => List.map (fun c => c.vals.getV i) [(⟨name, .nums vs⟩ : Col)])
      = (fun q => [Val.num q]) ∘ (fun i => vs.getD i 0) := by
    funext i
    rfl
  rw [hc, ← List.map_map, map_getD_range]

/-- On singleton numeric rows, the row order is the value order. -/
theorem rowLe_single_num (a b : ℚ) :
    (rowLe [Val.num a] [Val.num b] = true) ↔ a ≤ b := by
  by_cases h : a = b
  · subst h
    simp [rowLe, lexLe]
  · have hv : ¬ (Val.num a = Val.num b) := by
      intro hc
      exact h (Val.num.inj hc)
    simp [rowLe, lexLe, hv, valLe]

/-- Sorting singleton numeric rows sorts the values. -/
theorem sortRows_map_num (vs : List ℚ) :
    sortRows (vs.map (fun q => [Val.num q]))
      = (sortedQ vs).map (fun q => [Val.num q]) := by
  rw [sortRows, sortedQ]
  exact insertionSort_map (fun q => [Val.num q])
    (fun a b => rowLe a b = true) (fun a b : ℚ => a ≤ b)
    (fun a b => rowLe_single_num a b) vs

/-- The single column of singleton rows. -/
theorem colOf_map_single (vs : List ℚ) :
    colOf (vs.map (fun q => [Val.num q])) 0 = vs.map Val.num := by
  rw [colOf, List.map_map]
  rfl

/-- `valsClose` on numeric values is `allClose`. -/
theorem valsClose_map (xs ys : List ℚ) :
    valsClose (xs.map Val.num) (ys.map Val.num) = allClose xs ys := by
  induction xs generalizing ys with
  | nil => cases ys <;> rfl
  | cons x xs ih =>
    cases ys with
    | nil => rfl
    | cons y ys =>
      show (closeQ x y && valsClose (xs.map Val.num) (ys.map Val.num)) = _
      rw [ih]
      rfl

/-- Permuting by the full range is the identity. -/
theorem ColVals.permute_range (v : ColVals) :
    v.permute (List.range v.length) = v := by
  cases v with
  | nums vs =>
    show ColVals.nums ((List.range vs.length).map (fun i => vs.getD i 0)) = _
    rw [map_getD_range]
  | strs vs =>
    show ColVals.strs ((List.range vs.length).map (fun i => vs.getD i "")) = _
    rw [map_getD_range]

/-- `matchesCol` is invariant under row permutation of the candidate. -/
theorem matchesCol_permute_right (g c : ColVals) {τ : List Nat}
    (hτ : τ.Perm (List.range c.length)) :
    matchesCol g (c.permute τ) = matchesCol g c := by
  have h := matchesCol_permute g c
    (List.Perm.refl (List.range g.length)) hτ
  rwa [ColVals.permute_range] at h

/-- Reading one row position of a permuted column. -/
theorem ColVals.permute_getV (v : ColVals) (σ : List Nat) (i : Nat)
    (hi : i < σ.length) :
    (v.permute σ).getV i = v.getV (σ.getD i 0) := by
  have hσi : σ.getD i 0 = σ[i] := by
    rw [List.getD_eq_getElem?_getD, List.getElem?_eq_getElem hi]
    rfl
  cases v with
  | nums vs =>
    show Val.num ((σ.map (fun j => vs.getD j 0)).getD i 0)
      = Val.num (vs.getD (σ.getD i 0) 0)
    rw [List.getD_eq_getElem?_getD, List.getElem?_map,
      List.getElem?_eq_getElem hi, hσi]
    rfl
  | strs vs =>
    show Val.str ((σ.map (fun j => vs.getD j "")).getD i "")
      = Val.str (vs.getD (σ.getD i 0) "")
    rw [List.getD_eq_getElem?_getD, List.getElem?_map,
      List.getElem?_eq_getElem hi, hσi]
    rfl

/-- The rows of a row-permuted frame are the permuted rows. -/
theorem toRows_map_permute {σ : List Nat} {n : Nat} (cs : List Col)
    (hσlen : σ.length = n) :
    toRows (cs.map (fun c => { c with vals := c.vals.permute σ })) n
      = σ.map (fun k => cs.map (fun c => c.vals.getV k)) := by
  rw [toRows]
  have h1 : ∀ i ∈ List.range n,
      (cs.map (fun c => { c with vals := c.vals.permute σ })).map
        (fun c => c.vals.getV i)
      = cs.map (fun c => c.vals.getV (σ.getD i 0)) := by
    intro i hi
    rw [List.map_map]
    refine List.map_congr_left ?_
    intro c _
    show (c.vals.permute σ).getV i = c.vals.getV (σ.getD i 0)
    exact ColVals.permute_getV c.vals σ i (by rw [hσlen]; exact List.mem_range.mp hi)
  rw [List.map_congr_left h1, ← hσlen]
  have h2 : (fun i => cs.map (fun c => c.vals.getV (σ.getD i 0)))
      = (fun k => cs.map (fun c => c.vals.getV k)) ∘ (fun i => σ.getD i 0) := by
    funext i
    rfl
  rw [h2, ← List.map_map, map_getD_range]

/-- Sorting the rows of a frame is invariant under row permutation. -/
theorem sortRows_toRows_permute {σ : List Nat} {n : Nat} (cs : List Col)
    (hσ : σ.Perm (List.range n)) :
    sortRows (toRows (cs.map (fun c => { c with vals := c.vals.permute σ })) n)
      = sortRows (toRows cs n) := by
  have hσlen : σ.length = n := by
    have h := hσ.length_eq
    rwa [List.length_range] at h
  rw [toRows_map_permute cs hσlen]
  have hperm : (σ.map (fun k => cs.map (fun c => c.vals.getV k))).Perm
      (toRows cs n) := by
    rw [toRows]
    exact hσ.map (fun k => cs.map (fun c => c.vals.getV k))
  exact insertionSort_congrPerm (fun a b => rowLe a b = true)
    (fun a b => rowLe_total a b) (fun _ _ _ => rowLe_trans)
    (fun _ _ => rowLe_antisymm) hperm

/-- A nodup-named column list has at most one column of each name. -/
theorem length_filter_name_le_one {l : List Col}
    (h : (l.map Col.name).Nodup) (nm : String) :
    (l.filter (fun c => c.name == nm)).length ≤ 1 := by
  induction l with
  | nil => simp
  | cons c cs ih =>
    rw [List.map_cons, List.nodup_cons] at h
    rw [List.filter_cons]
    by_cases hc : c.name = nm
    · have hb : (c.name == nm) = true := by simpa using hc
      rw [hb, if_pos rfl]
      have hrest : cs.filter (fun c2 => c2.name == nm) = [] := by
        rw [List.filter_eq_nil_iff]
        intro c2 hc2 hb2
        have : c2.name = nm := by simpa using hb2
        exact h.1 (List.mem_map.mpr ⟨c2, hc2, by rw [this, hc]⟩)
      rw [hrest]
      simp
    · have hb : (c.name == nm) = false := by simpa using hc
      rw [hb]
      simpa using ih h.2

/-- Looking up a renamed column name in the greedy mapping. -/
theorem lookupMapping_rename {rn : String → String} {G golds : List Col}
    (hsub : ∀ g ∈ golds, g ∈ G)
    (hinj : ∀ c ∈ G, ∀ c2 ∈ G, rn c.name = rn c2.name → c.name = c2.name)
    {c : Col} (hc : c ∈ golds) :
    lookupMapping (golds.map (fun g => (rn g.name, g.name))) (rn c.name)
      = some c.name := by
  induction golds with
  | nil => exact absurd hc (List.not_mem_nil c)
  | cons g gs ih =>
    rw [List.map_cons, lookupMapping, List.find?]
    by_cases hb : rn g.name = rn c.name
    · have hbeq : (rn g.name == rn c.name) = true := by simpa using hb
      rw [hbeq]
      have := hinj g (hsub g (List.mem_cons_self g gs)) c
        (hsub c hc) hb
      simp [this]
    · have hbeq : (rn g.name == rn c.name) = false := by simpa using hb
      rw [hbeq]
      have hcgs : c ∈ gs := by
        cases List.mem_cons.mp hc with
        | inl h => exact absurd (by rw [h]) hb
        | inr h => exact h
      exact ih (fun g2 hg2 => hsub g2 (List.mem_cons_of_mem g hg2)) hcgs

/-- `find?` by name through a name-preserving map. -/
theorem find?_name_map {f : Col → Col} (hf : ∀ c, (f c).name = c.name)
    (l : List Col) (nm : String) :
    (l.map f).find? (fun c => c.name == nm)
      = (l.find? (fun c => c.name == nm)).map f := by
  have hp : ((fun c : Col => c.name == nm) ∘ f)
      = (fun c : Col => c.name == nm) := by
    funext c
    simp [Function.comp, hf]
  rw [List.find?_map, hp]

/-- `find?` by name succeeds when the name is present. -/
theorem find?_name_isSome {l : List Col} {nm : String}
    (h : nm ∈ l.map Col.name) :
    (l.find? (fun c => c.name == nm)).isSome = true := by
  rw [List.find?_isSome]
  obtain ⟨c, hc, hname⟩ := List.mem_map.mp h
  exact ⟨c, hc, by simp [hname]⟩

/-- In the scan of candidate columns obtained by renaming and row-permuting
gold columns with pairwise non-matching contents, a gold column matches
exactly its own renamed copy. -/
theorem findMatch_rename_permute {n : Nat} {σ : List Nat}
    {rn : String → String} {G : List Col}
    (hσ : σ.Perm (List.range n))
    (hlen : ∀ c ∈ G, c.vals.length = n)
    (hnodup : (G.map Col.name).Nodup)
    (hdist : ∀ c ∈ G, ∀ c2 ∈ G, c.name ≠ c2.name →
      matchesCol c.vals c2.vals = false)
    {g : Col} (hg : g ∈ G) {mapped : List String}
    (hfree : ¬ rn g.name ∈ mapped) :
    ∀ L : List Col, (∀ c ∈ L, c ∈ G) → g ∈ L →
      findMatch g mapped (L.map (fun c => ⟨rn c.name, c.vals.permute σ⟩))
        = some (rn g.name) := by
  intro L
  induction L with
  | nil =>
    intro _ hmem
    exact absurd hmem (List.not_mem_nil g)
  | cons c L ih =>
    intro hsub hmem
    have hcG : c ∈ G := hsub c (List.mem_cons_self c L)
    have hclen : c.vals.length = n := hlen c hcG
    have hmequiv : matchesCol g.vals (c.vals.permute σ)
        = matchesCol g.vals c.vals :=
      matchesCol_permute_right g.vals c.vals (by rw [hclen]; exact hσ)
    rw [List.map_cons]
    show (if mapped.contains (rn c.name) = true then
        findMatch g mapped (L.map (fun c => ⟨rn c.name, c.vals.permute σ⟩))
      else if matchesCol g.vals (c.vals.permute σ) = true then some (rn c.name)
      else findMatch g mapped (L.map (fun c => ⟨rn c.name, c.vals.permute σ⟩)))
      = some (rn g.name)
    by_cases hname : c.name = g.name
    · have hcg : c = g := List.inj_on_of_nodup_map hnodup hcG hg hname
      subst hcg
      rw [if_neg (fun hcont => hfree (List.elem_iff.mp hcont))]
      rw [if_pos (by rw [hmequiv]; exact matchesCol_refl c.vals)]
    · have hgL : g ∈ L := by
        cases List.mem_cons.mp hmem with
        | inl h =>
          exact absurd (congrArg Col.name h)
            (fun hc => hname hc.symm)
        | inr h => exact h
      have hsub2 : ∀ x ∈ L, x ∈ G :=
        fun x hx => hsub x (List.mem_cons_of_mem c hx)
      by_cases hcont : mapped.contains (rn c.name) = true
      · rw [if_pos hcont]
        exact ih hsub2 hgL
      · rw [if_neg hcont]
        rw [if_neg (by
          rw [hmequiv, hdist g hg c hcG (fun hc => hname hc.symm)]
          simp)]
        exact ih hsub2 hgL

/-- The greedy outer loop maps every gold column to its renamed copy when
gold columns are pairwise non-matching and the renaming is injective. -/
theorem matchColumnsAux_rename_permute {n : Nat} {σ : List Nat}
    {rn : String → String} {G : List Col}
    (hσ : σ.Perm (List.range n))
    (hlen : ∀ c ∈ G, c.vals.length = n)
    (hnodupG : (G.map Col.name).Nodup)
    (hdist : ∀ c ∈ G, ∀ c2 ∈ G, c.name ≠ c2.name →
      matchesCol c.vals c2.vals = false)
    (hinj : ∀ c ∈ G, ∀ c2 ∈ G, rn c.name = rn c2.name → c.name = c2.name) :
    ∀ (golds : List Col) (acc : List (String × String)),
      (∀ g ∈ golds, g ∈ G) → (golds.map Col.name).Nodup →
      (∀ g ∈ golds, ¬ rn g.name ∈ acc.map Prod.fst) →
      matchColumnsAux (G.map (fun c => ⟨rn c.name, c.vals.permute σ⟩)) golds acc
        = acc ++ golds.map (fun g => (rn g.name, g.name)) := by
  intro golds
  induction golds with
  | nil =>
    intro acc _ _ _
    simp [matchColumnsAux]
  | cons g gs ih =>
    intro acc hsub hnodup hacc
    have hgG : g ∈ G := hsub g (List.mem_cons_self g gs)
    rw [matchColumnsAux]
    rw [findMatch_rename_permute hσ hlen hnodupG hdist hgG
      (hacc g (List.mem_cons_self g gs)) G (fun c hc => hc) hgG]
    show matchColumnsAux _ gs (acc ++ [(rn g.name, g.name)]) = _
    rw [List.map_cons, List.nodup_cons] at hnodup
    have hacc2 : ∀ g2 ∈ gs,
        ¬ rn g2.name ∈ (acc ++ [(rn g.name, g.name)]).map Prod.fst := by
      intro g2 hg2 hmem
      rw [List.map_append, List.mem_append] at hmem
      cases hmem with
      | inl h => exact hacc g2 (List.mem_cons_of_mem g hg2) h
      | inr h =>
        have heq : rn g2.name = rn g.name := by simpa using h
        have := hinj g2 (hsub g2 (List.mem_cons_of_mem g hg2)) g hgG heq
        exact hnodup.1 (List.mem_map.mpr ⟨g2, hg2, this⟩)
    rw [ih (acc ++ [(rn g.name, g.name)])
      (fun g2 hg2 => hsub g2 (List.mem_cons_of_mem g hg2)) hnodup.2 hacc2]
    simp

/-- The columns of a row-permuted frame. -/
theorem permuteRows_cols (df : DF) (σ : List Nat) :
    (df.permuteRows σ).cols
      = df.cols.map (fun c => { c with vals := c.vals.permute σ }) := rfl

/-- The column count of a row-permuted frame. -/
theorem ncols_permuteRows (df : DF) (σ : List Nat) :
    (df.permuteRows σ).ncols = df.ncols := by
  simp [DF.ncols, DF.permuteRows]

/-- The column names of a row-permuted frame. -/
theorem names_permuteRows (df : DF) (σ : List Nat) :
    (df.permuteRows σ).names = df.names := by
  simp only [DF.names, DF.permuteRows, List.map_map]
  rfl

/-- The row count of a row-permuted frame. -/
theorem nrows_permuteRows (df : DF) {σ : List Nat}
    (hσ : σ.Perm (List.range df.nrows)) :
    (df.permuteRows σ).nrows = df.nrows := by
  have hσlen : σ.length = df.nrows := by
    have h := hσ.length_eq
    rwa [List.length_range] at h
  cases hg : df.cols with
  | nil => simp [DF.nrows, DF.permuteRows, hg]
  | cons c cs =>
    have h1 : df.nrows = c.vals.length := by simp [DF.nrows, hg]
    simp [DF.nrows, DF.permuteRows, hg, ColVals.permute_length, hσlen, h1]

/-- Emptiness of a row-permuted frame. -/
theorem isEmptyDF_permuteRows (df : DF) {σ : List Nat}
    (hσ : σ.Perm (List.range df.nrows)) :
    (df.permuteRows σ).isEmptyDF = df.isEmptyDF := by
  rw [DF.isEmptyDF, DF.isEmptyDF, nrows_permuteRows df hσ]
  cases hg : df.cols with
  | nil => simp [DF.permuteRows, hg]
  | cons c cs => simp [DF.permuteRows, hg]

/-- `findMatch` is invariant under row permutation of the scanned columns
and of the gold column. -/
theorem findMatch_permute {σ τ : List Nat} {ng nc : Nat}
    (hσ : σ.Perm (List.range ng)) (hτ : τ.Perm (List.range nc))
    {g : Col} (hg : g.vals.length = ng) :
    ∀ (L : List Col), (∀ c ∈ L, c.vals.length = nc) → ∀ (mapped : List String),
    findMatch { g with vals := g.vals.permute σ } mapped
        (L.map (fun c => { c with vals := c.vals.permute τ }))
      = findMatch g mapped L := by
  intro L
  induction L with
  | nil =>
    intro _ mapped
    rfl
  | cons c L ih =>
    intro hlen mapped
    have hcl : c.vals.length = nc := hlen c (List.mem_cons_self c L)
    have hmeq : matchesCol (g.vals.permute σ) (c.vals.permute τ)
        = matchesCol g.vals c.vals :=
      matchesCol_permute g.vals c.vals (by rw [hg]; exact hσ)
        (by rw [hcl]; exact hτ)
    rw [List.map_cons]
    show (if mapped.contains c.name = true then
        findMatch { g with vals := g.vals.permute σ } mapped
          (L.map (fun c => { c with vals := c.vals.permute τ }))
      else if matchesCol (g.vals.permute σ) (c.vals.permute τ) = true then
        some c.name
      else findMatch { g with vals := g.vals.permute σ } mapped
        (L.map (fun c => { c with vals := c.vals.permute τ })))
      = findMatch g mapped (c :: L)
    rw [findMatch]
    have ihh := ih (fun x hx => hlen x (List.mem_cons_of_mem c hx)) mapped
    by_cases hcont : mapped.contains c.name = true
    · rw [if_pos hcont, if_pos hcont, ihh]
    · rw [if_neg hcont, if_neg hcont, hmeq]
      by_cases hmm : matchesCol g.vals c.vals = true
      · rw [if_pos hmm, if_pos hmm]
      · rw [if_neg hmm, if_neg hmm, ihh]

/-- The greedy loop is invariant under row permutation of both frames. -/
theorem matchColumnsAux_permute {σ τ : List Nat} {ng nc : Nat}
    (hσ : σ.Perm (List.range ng)) (hτ : τ.Perm (List.range nc))
    {C : List Col} (hC : ∀ c ∈ C, c.vals.length = nc) :
    ∀ (golds : List Col), (∀ g ∈ golds, g.vals.length = ng) →
      ∀ (acc : List (String × String)),
      matchColumnsAux (C.map (fun c => { c with vals := c.vals.permute τ }))
        (golds.map (fun c => { c with vals := c.vals.permute σ })) acc
        = matchColumnsAux C golds acc := by
  intro golds
  induction golds with
  | nil =>
    intro _ acc
    rfl
  | cons g gs ih =>
    intro hlen acc
    rw [List.map_cons, matchColumnsAux, matchColumnsAux]
    rw [findMatch_permute hσ hτ (hlen g (List.mem_cons_self g gs)) C hC
      (acc.map Prod.fst)]
    cases hfind : findMatch g (acc.map Prod.fst) C with
    | none =>
      exact ih (fun x hx => hlen x (List.mem_cons_of_mem g hx)) acc
    | some cn =>
      exact ih (fun x hx => hlen x (List.mem_cons_of_mem g hx))
        (acc ++ [(cn, g.name)])

/-- `match_columns` is invariant under row permutation of both frames. -/
theorem match_columns_permute (gold comp : DF) {σ τ : List Nat}
    (hglen : ∀ c ∈ gold.cols, c.vals.length = gold.nrows)
    (hclen : ∀ c ∈ comp.cols, c.vals.length = comp.nrows)
    (hσ : σ.Perm (List.range gold.nrows))
    (hτ : τ.Perm (List.range comp.nrows)) :
    match_columns (gold.permuteRows σ) (comp.permuteRows τ)
      = match_columns gold comp := by
  have hsort : sortColsByName ((gold.permuteRows σ).cols)
      = (sortColsByName gold.cols).map
        (fun c => { c with vals := c.vals.permute σ }) := by
    rw [permuteRows_cols, sortColsByName, sortColsByName]
    exact insertionSort_map (fun c => { c with vals := c.vals.permute σ })
      (fun a b => strLe a.name b.name = true)
      (fun a b => strLe a.name b.name = true) (fun a b => Iff.rfl) gold.cols
  have hsortlen : ∀ g ∈ sortColsByName gold.cols, g.vals.length = gold.nrows :=
    fun g hg => hglen g ((List.perm_insertionSort _ _).mem_iff.mp hg)
  rw [match_columns, match_columns, hsort, permuteRows_cols,
    matchColumnsAux_permute hσ hτ hclen (sortColsByName gold.cols)
      hsortlen [], names_permuteRows]

/-- Permuting the empty numeric column still reads as numeric zero. -/
theorem permute_nil_getV (τ : List Nat) (i : Nat) :
    ((ColVals.nums []).permute τ).getV i = Val.num 0 := by
  show Val.num ((τ.map (fun j => ([] : List ℚ).getD j 0)).getD i 0) = Val.num 0
  congr 1
  rw [List.getD_eq_getElem?_getD, List.getElem?_map]
  cases τ[i]? <;> rfl

/-- `scanCols` only inspects the gold columns through `isNumeric`. -/
theorem scanCols_congr {gs1 gs2 : List Col}
    (h : ∀ j, (gs1.getD j ⟨"", .strs []⟩).vals.isNumeric
      = (gs2.getD j ⟨"", .strs []⟩).vals.isNumeric)
    (gr cr : List (List Val)) :
    ∀ L : List (Nat × String), scanCols gs1 gr cr L = scanCols gs2 gr cr L := by
  intro L
  induction L with
  | nil => rfl
  | cons p L ih =>
    obtain ⟨j, nm⟩ := p
    rw [scanCols, scanCols]
    by_cases h1 : colOf gr j = colOf cr j
    · rw [if_pos h1, if_pos h1, ih]
    · rw [if_neg h1, if_neg h1, h j]
      by_cases h2 : ((gs2.getD j ⟨"", .strs []⟩).vals.isNumeric
          && valsClose (colOf gr j) (colOf cr j)) = true
      · rw [if_pos h2, if_pos h2, ih]
      · rw [if_neg h2, if_neg h2]

/-- Selecting columns by name from a mapped list and reading rows: the map
commutes out, up to the all-default values of the fallback column. -/
theorem toRows_sel_map {f : Col → Col} (hf : ∀ c, (f c).name = c.name)
    (hnil : ∀ (nm : String) (i : Nat),
      (f ⟨nm, .nums []⟩).vals.getV i = (ColVals.nums []).getV i)
    (base : List Col) (cN : List String) (n : Nat) :
    toRows (cN.map (fun nm => ((base.map f).find?
        (fun c => c.name == nm)).getD ⟨nm, .nums []⟩)) n
      = toRows ((cN.map (fun nm => (base.find?
        (fun c => c.name == nm)).getD ⟨nm, .nums []⟩)).map f) n := by
  rw [toRows, toRows]
  refine List.map_congr_left ?_
  intro i _
  rw [List.map_map, List.map_map, List.map_map]
  refine List.map_congr_left ?_
  intro nm _
  show (((base.map f).find? (fun c => c.name == nm)).getD
      ⟨nm, .nums []⟩).vals.getV i
    = (f ((base.find? (fun c => c.name == nm)).getD ⟨nm, .nums []⟩)).vals.getV i
  rw [@find?_name_map f hf base nm]
  cases hfind : base.find? (fun c => c.name == nm) with
  | some a => rfl
  | none => exact (hnil nm i).symm

/-- Selecting columns by name from a kind-preserving mapped list: the
numeric flag of each selected column is unchanged. -/
theorem sel_isNumeric_map {f : Col → Col} (hf : ∀ c, (f c).name = c.name)
    (hnum : ∀ c, (f c).vals.isNumeric = c.vals.isNumeric)
    (base : List Col) (cN : List String) (j : Nat) :
    ((cN.map (fun nm => ((base.map f).find?
        (fun c => c.name == nm)).getD ⟨nm, .nums []⟩)).getD j
      ⟨"", .strs []⟩).vals.isNumeric
      = ((cN.map (fun nm => (base.find?
        (fun c => c.name == nm)).getD ⟨nm, .nums []⟩)).getD j
        ⟨"", .strs []⟩).vals.isNumeric := by
  rw [List.getD_eq_getElem?_getD, List.getD_eq_getElem?_getD,
    List.getElem?_map, List.getElem?_map]
  cases hj : cN[j]? with
  | none => rfl
  | some nm =>
    show (((base.map f).find? (fun c => c.name == nm)).getD
        ⟨nm, .nums []⟩).vals.isNumeric
      = ((base.find? (fun c => c.name == nm)).getD
        ⟨nm, .nums []⟩).vals.isNumeric
    rw [@find?_name_map f hf base nm]
    cases hfind : base.find? (fun c => c.name == nm) with
    | some a => exact hnum a
    | none => rfl

/-- The columns of a renamed, row-permuted frame. -/
theorem renameCols_permuteRows_cols (gold : DF) (rn : String → String)
    (σ : List Nat) :
    ((gold.renameCols rn).permuteRows σ).cols
      = gold.cols.map (fun c => ⟨rn c.name, c.vals.permute σ⟩) := by
  simp only [DF.renameCols, DF.permuteRows, List.map_map]
  rfl

/-- `match_columns` on a renamed row-permuted copy of a well-formed gold
frame with pairwise non-matching columns returns the full greedy mapping. -/
theorem match_columns_rename_permute (gold : DF) (rn : String → String)
    (σ : List Nat) (hwf : gold.wf)
    (hσ : σ.Perm (List.range gold.nrows))
    (hinj : ∀ c ∈ gold.cols, ∀ c2 ∈ gold.cols,
      rn c.name = rn c2.name → c.name = c2.name)
    (hdist : ∀ c ∈ gold.cols, ∀ c2 ∈ gold.cols, c.name ≠ c2.name →
      matchesCol c.vals c2.vals = false) :
    match_columns gold ((gold.renameCols rn).permuteRows σ)
      = .ok ((sortColsByName gold.cols).map (fun g => (rn g.name, g.name))) := by
  obtain ⟨hlen, hnodup⟩ := hwf
  have hperm : (sortColsByName gold.cols).Perm gold.cols :=
    List.perm_insertionSort _ _
  have hsub : ∀ g ∈ sortColsByName gold.cols, g ∈ gold.cols :=
    fun g hg => hperm.mem_iff.mp hg
  have hnodup2 : ((sortColsByName gold.cols).map Col.name).Nodup :=
    ((hperm.map Col.name).symm).nodup hnodup
  rw [match_columns, renameCols_permuteRows_cols]
  rw [matchColumnsAux_rename_permute hσ hlen hnodup hdist hinj
    (sortColsByName gold.cols) [] hsub hnodup2 (by simp)]
  rw [List.nil_append]
  have hunmapped : gold.names.filter (fun nm =>
      !(((sortColsByName gold.cols).map
        (fun g => (rn g.name, g.name))).map Prod.snd).contains nm) = [] := by
    rw [List.filter_eq_nil_iff]
    intro nm hnm
    have hsnd : ((sortColsByName gold.cols).map
        (fun g => (rn g.name, g.name))).map Prod.snd
        = (sortColsByName gold.cols).map Col.name := by
      rw [List.map_map]
      rfl
    have hmem : nm ∈ (sortColsByName gold.cols).map Col.name :=
      ((hperm.map Col.name).mem_iff).mpr hnm
    rw [hsnd]
    simpa using hmem
  rw [hunmapped]
  rfl

/-- Permuted lists are simultaneously empty. -/
theorem isEmpty_eq_of_perm {α : Type} {l₁ l₂ : List α} (h : l₁.Perm l₂) :
    l₁.isEmpty = l₂.isEmpty := by
  cases l₁ with
  | nil => rw [h.symm.eq_nil]
  | cons a as =>
    cases l₂ with
    | nil => exact absurd h.eq_nil (by simp)
    | cons b bs => rfl

/-- Two sorted permutations of each other are equal when the relation is
antisymmetric on the elements of the lists (local version of
`List.eq_of_perm_of_sorted`). -/
theorem sorted_eq_of_perm_on {α : Type} {r : α → α → Prop} :
    ∀ {l₁ l₂ : List α}, l₁.Perm l₂ → l₁.Sorted r → l₂.Sorted r →
      (∀ a ∈ l₁, ∀ b ∈ l₁, r a b → r b a → a = b) → l₁ = l₂ := by
  intro l₁
  induction l₁ with
  | nil =>
    intro l₂ hp _ _ _
    exact (hp.symm.eq_nil).symm
  | cons a as ih =>
    intro l₂ hp hs₁ hs₂ hanti
    cases l₂ with
    | nil => exact absurd hp.eq_nil (by simp)
    | cons b bs =>
      have hsc₁ := List.sorted_cons.mp hs₁
      have hsc₂ := List.sorted_cons.mp hs₂
      have hab : a = b := by
        by_cases h : a = b
        · exact h
        · have ha₂ : a ∈ b :: bs := hp.mem_iff.mp (List.mem_cons_self a as)
          have hb₁ : b ∈ a :: as := hp.symm.mem_iff.mp (List.mem_cons_self b bs)
          have ha' : a ∈ bs := by
            cases List.mem_cons.mp ha₂ with
            | inl he => exact absurd he h
            | inr hm => exact hm
          have hb' : b ∈ as := by
            cases List.mem_cons.mp hb₁ with
            | inl he => exact absurd he.symm h
            | inr hm => exact hm
          exact hanti a (List.mem_cons_self a as) b (List.mem_cons_of_mem a hb')
            (hsc₁.1 b hb') (hsc₂.1 a ha')
      subst hab
      have htail : as = bs :=
        ih hp.cons_inv hsc₁.2 hsc₂.2
          (fun x hx y hy => hanti x (List.mem_cons_of_mem a hx)
            y (List.mem_cons_of_mem a hy))
      rw [htail]

/-- `sorted(gold_df.columns)` does not depend on the presentation order of
the columns when the column names are distinct. -/
theorem sortColsByName_perm {l₁ l₂ : List Col} (hp : l₁.Perm l₂)
    (hnd : (l₂.map Col.name).Nodup) :
    sortColsByName l₁ = sortColsByName l₂ := by
  haveI : IsTotal Col (fun a b => strLe a.name b.name = true) :=
    ⟨fun a b => strLe_total a.name b.name⟩
  haveI : IsTrans Col (fun a b => strLe a.name b.name = true) :=
    ⟨fun _ _ _ h₁ h₂ => strLe_trans h₁ h₂⟩
  rw [sortColsByName, sortColsByName]
  refine @sorted_eq_of_perm_on Col (fun a b => strLe a.name b.name = true) _ _
    ((List.perm_insertionSort _ l₁).trans
      (hp.trans (List.perm_insertionSort _ l₂).symm))
    (List.sorted_insertionSort _ l₁) (List.sorted_insertionSort _ l₂) ?_
  intro a ha b hb h₁ h₂
  exact List.inj_on_of_nodup_map hnd
    (hp.mem_iff.mp ((List.perm_insertionSort _ l₁).mem_iff.mp ha))
    (hp.mem_iff.mp ((List.perm_insertionSort _ l₁).mem_iff.mp hb))
    (strLe_antisymm h₁ h₂)

/-- Column lookup by name does not depend on the presentation order of the
columns when the column names are distinct. -/
theorem find?_name_perm {l₁ l₂ : List Col} (hp : l₁.Perm l₂)
    (hnd : (l₂.map Col.name).Nodup) (n : String) :
    l₁.find? (fun c => c.name == n) = l₂.find? (fun c => c.name == n) := by
  cases h₁ : l₁.find? (fun c => c.name == n) with
  | none =>
    cases h₂ : l₂.find? (fun c => c.name == n) with
    | none => rfl
    | some b =>
      rw [List.find?_eq_none] at h₁
      exact absurd (List.find?_some h₂)
        (h₁ b (hp.symm.mem_iff.mp (List.mem_of_find?_eq_some h₂)))
  | some a =>
    cases h₂ : l₂.find? (fun c => c.name == n) with
    | none =>
      rw [List.find?_eq_none] at h₂
      exact absurd (List.find?_some h₁)
        (h₂ a (hp.mem_iff.mp (List.mem_of_find?_eq_some h₁)))
    | some b =>
      have hna : a.name = n := by
        have h := List.find?_some h₁
        simpa using h
      have hnb : b.name = n := by
        have h := List.find?_some h₂
        simpa using h
      rw [List.inj_on_of_nodup_map hnd
        (hp.mem_iff.mp (List.mem_of_find?_eq_some h₁))
        (List.mem_of_find?_eq_some h₂) (hna.trans hnb.symm)]

/-- The row count of a frame is stable under permuting its columns when
all columns carry the frame's row count. -/
theorem nrows_perm_cols {g₁ g₂ : DF} (hp : g₂.cols.Perm g₁.cols)
    (hlen : ∀ c ∈ g₁.cols, c.vals.length = g₁.nrows) :
    g₂.nrows = g₁.nrows := by
  cases h₂ : g₂.cols with
  | nil =>
    have h₁ : g₁.cols = [] := by
      have hpn := hp
      rw [h₂] at hpn
      exact hpn.symm.eq_nil
    have e₂ : g₂.nrows = 0 := by
      show (match g₂.cols with | [] => 0 | c :: _ => c.vals.length) = 0
      rw [h₂]
    have e₁ : g₁.nrows = 0 := by
      show (match g₁.cols with | [] => 0 | c :: _ => c.vals.length) = 0
      rw [h₁]
    rw [e₁, e₂]
  | cons c cs =>
    have hc : c ∈ g₁.cols := hp.mem_iff.mp (by
      rw [h₂]
      exact List.mem_cons_self c cs)
    have e₂ : g₂.nrows = c.vals.length := by
      show (match g₂.cols with | [] => 0 | c :: _ => c.vals.length)
        = c.vals.length
      rw [h₂]
    rw [e₂]
    exact hlen c hc

/-- `DataFrame.empty` is stable under permuting the columns of a
well-formed frame. -/
theorem isEmptyDF_perm_cols {g₁ g₂ : DF} (hp : g₂.cols.Perm g₁.cols)
    (hlen : ∀ c ∈ g₁.cols, c.vals.length = g₁.nrows) :
    g₂.isEmptyDF = g₁.isEmptyDF := by
  rw [DF.isEmptyDF, DF.isEmptyDF, nrows_perm_cols hp hlen,
    isEmpty_eq_of_perm hp]

/-- `match_columns` on a column-permuted gold frame with distinct column
names: same successful mapping, or failure on both sides (the failure
diagnostics may list the unmatched names in a different order). -/
theorem match_columns_gold_perm {gold gold2 : DF} (comp : DF)
    (hp : gold2.cols.Perm gold.cols) (hnd : gold.names.Nodup) :
    match_columns gold2 comp = match_columns gold comp
    ∨ ∃ e₂ e₁, match_columns gold2 comp = .error e₂
        ∧ match_columns gold comp = .error e₁ := by
  have hnd' : (gold.cols.map Col.name).Nodup := hnd
  have hM : matchColumnsAux comp.cols (sortColsByName gold2.cols) []
      = matchColumnsAux comp.cols (sortColsByName gold.cols) [] := by
    rw [sortColsByName_perm hp hnd']
  have h2form : match_columns gold2 comp
      = if (gold2.names.filter (fun n =>
          !(((matchColumnsAux comp.cols (sortColsByName gold.cols) []).map
            Prod.snd).contains n))).isEmpty
        then .ok (matchColumnsAux comp.cols (sortColsByName gold.cols) [])
        else .error ("Could not match gold columns: "
          ++ String.intercalate ", " (gold2.names.filter (fun n =>
            !(((matchColumnsAux comp.cols (sortColsByName gold.cols) []).map
              Prod.snd).contains n)))) := by
    rw [match_columns, hM]
  have h1form : match_columns gold comp
      = if (gold.names.filter (fun n =>
          !(((matchColumnsAux comp.cols (sortColsByName gold.cols) []).map
            Prod.snd).contains n))).isEmpty
        then .ok (matchColumnsAux comp.cols (sortColsByName gold.cols) [])
        else .error ("Could not match gold columns: "
          ++ String.intercalate ", " (gold.names.filter (fun n =>
            !(((matchColumnsAux comp.cols (sortColsByName gold.cols) []).map
              Prod.snd).contains n)))) := by
    rw [match_columns]
  have hfe : (gold2.names.filter (fun n =>
      !(((matchColumnsAux comp.cols (sortColsByName gold.cols) []).map
        Prod.snd).contains n))).isEmpty
      = (gold.names.filter (fun n =>
        !(((matchColumnsAux comp.cols (sortColsByName gold.cols) []).map
          Prod.snd).contains n))).isEmpty :=
    isEmpty_eq_of_perm ((hp.map Col.name).filter _)
  by_cases hu : (gold.names.filter (fun n =>
      !(((matchColumnsAux comp.cols (sortColsByName gold.cols) []).map
        Prod.snd).contains n))).isEmpty = true
  · left
    rw [h2form, h1form, if_pos hu, if_pos (hfe.trans hu)]
  · right
    have hu2 : ¬((gold2.names.filter (fun n =>
        !(((matchColumnsAux comp.cols (sortColsByName gold.cols) []).map
          Prod.snd).contains n))).isEmpty = true) := by
      rw [hfe]
      exact hu
    exact ⟨_, _, h2form.trans (if_neg hu2), h1form.trans (if_neg hu)⟩

/-- The verdict of `compare` is stable under permuting the columns of a
well-formed gold frame: gold columns are consumed in sorted-name order
throughout, never in presentation order. -/
theorem compare_goldPerm_verdict {gold gold2 : DF} (comp : DF)
    (hlen : ∀ c ∈ gold.cols, c.vals.length = gold.nrows)
    (hnd : gold.names.Nodup)
    (hp : gold2.cols.Perm gold.cols) :
    verdict (FuzzyCompare.compare gold2 comp)
      = verdict (FuzzyCompare.compare gold comp) := by
  have hnr : gold2.nrows = gold.nrows := nrows_perm_cols hp hlen
  have hemp : gold2.isEmptyDF = gold.isEmptyDF := isEmptyDF_perm_cols hp hlen
  have hncols : gold2.ncols = gold.ncols := hp.length_eq
  have hnd' : (gold.cols.map Col.name).Nodup := hnd
  have hcN : List.insertionSort (fun a b => strLe a b = true) gold2.names
      = List.insertionSort (fun a b => strLe a b = true) gold.names :=
    insertionSort_congrPerm _ strLe_total (fun _ _ _ h₁ h₂ => strLe_trans h₁ h₂)
      (fun _ _ h₁ h₂ => strLe_antisymm h₁ h₂) (hp.map Col.name)
  rw [FuzzyCompare.compare, FuzzyCompare.compare, hemp, hnr, hncols]
  by_cases hempc : (gold.isEmptyDF && comp.isEmptyDF) = true
  · rw [if_pos hempc, if_pos hempc]
  · rw [if_neg hempc, if_neg hempc]
    by_cases hrows : gold.nrows ≠ comp.nrows
    · rw [if_pos hrows, if_pos hrows]
    · rw [if_neg hrows, if_neg hrows]
      by_cases hcls : comp.ncols < gold.ncols
      · rw [if_pos hcls, if_pos hcls]
      · rw [if_neg hcls, if_neg hcls]
        rcases match_columns_gold_perm comp hp hnd with heq | ⟨e₂, e₁, h₂, h₁⟩
        · rw [heq]
          cases hmc : match_columns gold comp with
          | error e => rfl
          | ok mapping =>
            dsimp only
            rw [hcN]
            have hsel : (List.insertionSort (fun a b => strLe a b = true)
                gold.names).map (fun n =>
                  (gold2.cols.find? (fun c => c.name == n)).getD ⟨n, .nums []⟩)
                = (List.insertionSort (fun a b => strLe a b = true)
                  gold.names).map (fun n =>
                    (gold.cols.find? (fun c => c.name == n)).getD
                      ⟨n, .nums []⟩) :=
              List.map_congr_left (fun n _ => by rw [find?_name_perm hp hnd' n])
            rw [hsel]
        · rw [h₂, h₁]
          rfl

end FuzzyCompare

namespace Scheduler

theorem keyGe_refl (v : Option Nat) : keyGe v v = true := by
  cases v with
  | none => rfl
  | some a => simp [keyGe]

theorem keyGe_total (a b : Option Nat) : keyGe a b = true ∨ keyGe b a = true := by
  cases a with
  | none => left; rfl
  | some x =>
    cases b with
    | none => right; rfl
    | some y => simpa [keyGe, decide_eq_true_eq] using Nat.le_total y x

theorem keyGe_trans {a b c : Option Nat} (h₁ : keyGe a b = true)
    (h₂ : keyGe b c = true) : keyGe a c = true := by
  cases a with
  | none => rfl
  | some x =>
    cases b with
    | none => simp [keyGe] at h₁
    | some y =>
      cases c with
      | none => simp [keyGe] at h₂
      | some z =>
        simp only [keyGe, decide_eq_true_eq] at h₁ h₂ ⊢
        exact Nat.le_trans h₂ h₁

theorem hintOf_nil (tid : String) : hintOf [] tid = none := rfl

/-- Lookup in a non-empty hint mapping. -/
theorem hintOf_cons (t : String) (m : Nat) (rest : List (String × Nat))
    (tid : String) :
    hintOf ((t, m) :: rest) tid
      = if t = tid then some m else hintOf rest tid := by
  by_cases h : t = tid
  · subst h
    simp [hintOf, List.find?]
  · have hb : (t == tid) = false := by simpa using h
    simp [hintOf, List.find?, hb, h]

/-- How inserting one record changes a lookup. -/
theorem hintOf_addHint (acc : List (String × Nat)) (r : String × Nat)
    (tid : String) :
    hintOf (addHint acc r) tid =
      if r.1 = tid then
        (match hintOf acc tid with
         | some m => some (max m r.2)
         | none => some r.2)
      else hintOf acc tid := by
  obtain ⟨a, b⟩ := r
  induction acc with
  | nil =>
    show hintOf [(a, b)] tid = _
    rw [hintOf_cons]
    by_cases h : a = tid <;> simp [h, hintOf_nil]
  | cons p rest ih =>
    obtain ⟨t, m⟩ := p
    by_cases ht : t = a
    · subst ht
      have haddeq : addHint ((t, m) :: rest) (t, b) = (t, max m b) :: rest := by
        simp [addHint]
      rw [haddeq, hintOf_cons, hintOf_cons]
      by_cases htid : t = tid <;> simp [htid]
    · have haddeq : addHint ((t, m) :: rest) (a, b)
          = (t, m) :: addHint rest (a, b) := by
        simp [addHint, ht]
      rw [haddeq, hintOf_cons, hintOf_cons]
      by_cases htid : t = tid
      · subst htid
        have hra : ¬ a = t := fun h => ht h.symm
        simp [hra]
      · simp only [if_neg htid]
        exact ih

/-- Merge of two optional maxima. -/
theorem foldl_max_comm (l : List Nat) :
    ∀ a b, l.foldl max (max a b) = max a (l.foldl max b) := by
  induction l with
  | nil => intro a b; rfl
  | cons c cs ih =>
    intro a b
    show cs.foldl max (max (max a b) c) = max a (cs.foldl max (max b c))
    rw [Nat.max_assoc, ih a (max b c)]

/-- `maxRuntimeSpec` unfolded one record at a time. -/
theorem maxRuntimeSpec_cons (r : String × Nat) (rs : List (String × Nat))
    (tid : String) :
    maxRuntimeSpec (r :: rs) tid =
      if r.1 = tid then
        (match maxRuntimeSpec rs tid with
         | some m => some (max r.2 m)
         | none => some r.2)
      else maxRuntimeSpec rs tid := by
  by_cases h : r.1 = tid
  · have hb : (r.1 == tid) = true := by simpa using h
    have hfil : List.filter (fun p => p.1 == tid) (r :: rs)
        = r :: List.filter (fun p => p.1 == tid) rs := by
      simp [List.filter_cons, hb]
    rw [if_pos h, maxRuntimeSpec, hfil, List.map_cons]
    cases hrest : (List.filter (fun p => p.1 == tid) rs).map Prod.snd with
    | nil => simp [maxRuntimeSpec, hrest]
    | cons m ms =>
      simp only [maxRuntimeSpec, hrest]
      show some (ms.foldl max (max r.2 m)) = some (max r.2 (ms.foldl max m))
      rw [foldl_max_comm]
  · have hb : (r.1 == tid) = false := by simpa using h
    have hfil : List.filter (fun p => p.1 == tid) (r :: rs)
        = List.filter (fun p => p.1 == tid) rs := by
      simp [List.filter_cons, hb]
    rw [if_neg h, maxRuntimeSpec, hfil, maxRuntimeSpec]

/-- Folding the records into the hint map computes, per task id, the maximum
of all its recorded runtimes (on top of whatever the accumulator held). -/
theorem hintOf_foldl (records : List (String × Nat)) :
    ∀ (acc : List (String × Nat)) (tid : String),
    hintOf (records.foldl addHint acc) tid =
      (match hintOf acc tid, maxRuntimeSpec records tid with
       | none, o => o
       | some a, none => some a
       | some a, some b => some (max a b)) := by
  induction records with
  | nil =>
    intro acc tid
    cases h : hintOf acc tid <;> simp [maxRuntimeSpec, h]
  | cons r rs ih =>
    intro acc tid
    show hintOf (rs.foldl addHint (addHint acc r)) tid = _
    rw [ih (addHint acc r) tid, hintOf_addHint, maxRuntimeSpec_cons]
    by_cases h : r.1 = tid
    · rw [if_pos h, if_pos h]
      cases hacc : hintOf acc tid <;>
        cases hrs : maxRuntimeSpec rs tid <;>
          simp [Nat.max_assoc, Nat.max_comm, Nat.max_left_comm]
    · rw [if_neg h, if_neg h]

end Scheduler

end ADEBench

/-! ## Claim theorems -/

open ADEBench ADEBench.FuzzyCompare ADEBench.Scheduler ADEBench.Agents

/-- C2 counterexample: the completion predicate that the source evaluates
while the agent command runs (`_is_agent_output_complete`, inherited
unchanged by `ClaudeCodeAgent`) returns `false` even for a container whose
captured output tail is exactly one well-formed terminal marker, so the
claim "the predicate returns true when the tail contains a well-formed
terminal marker" fails on this concrete input. -/
theorem C2_counterexample :
    containsWellFormedMarker
      ((⟨fun _ => [wellFormedResultLine]⟩ : Container).files "/tmp/agent_output.log")
      = true
    ∧ ClaudeCodeAgent.isAgentOutputComplete
        ⟨fun _ => [wellFormedResultLine]⟩ "/tmp/agent_output.log" = false := by
  constructor
  · simp [containsWellFormedMarker]
  · rfl

/-- C2 (amended): the completion predicate in the source returns `false`
for every container and captured output — tails with well-formed markers
and tails with truncated markers alike — and, being a total function,
never raises; completion is never declared from output content. -/
theorem C2_amended (c : Container) (f : String) :
    ClaudeCodeAgent.isAgentOutputComplete c f = false := rfl

/-- C3: the scheduler orders work items descending by
`hints.get(task_id, +inf)` — the output is sorted under `keyGe`, items
without a hint never follow a hinted item, and on the spec's example
`{fast: 100, medium: 500, slow: 1000}` with input
`[fast, unknown, slow, medium]` the output is
`[unknown, slow, medium, fast]`. -/
theorem C3_order_descending :
    (∀ (L : List WorkItem) (H : List (String × Nat)),
      (order L H).Pairwise (fun a b => keyGe (hintKey H a) (hintKey H b) = true))
    ∧ (∀ (L : List WorkItem) (H : List (String × Nat)),
      (order L H).Pairwise (fun a b => hintKey H b = none → hintKey H a = none))
    ∧ order [⟨"fast", "base"⟩, ⟨"unknown", "base"⟩, ⟨"slow", "base"⟩,
        ⟨"medium", "base"⟩] [("fast", 100), ("medium", 500), ("slow", 1000)]
      = [⟨"unknown", "base"⟩, ⟨"slow", "base"⟩, ⟨"medium", "base"⟩,
        ⟨"fast", "base"⟩] := by
  have hsorted : ∀ (L : List WorkItem) (H : List (String × Nat)),
      (order L H).Pairwise (fun a b => keyGe (hintKey H a) (hintKey H b) = true) := by
    intro L H
    haveI : IsTotal WorkItem
        (fun a b => keyGe (hintKey H a) (hintKey H b) = true) :=
      ⟨fun a b => keyGe_total (hintKey H a) (hintKey H b)⟩
    haveI : IsTrans WorkItem
        (fun a b => keyGe (hintKey H a) (hintKey H b) = true) :=
      ⟨fun _ _ _ h₁ h₂ => keyGe_trans h₁ h₂⟩
    exact List.sorted_insertionSort _ L
  refine ⟨hsorted, ?_, by decide⟩
  intro L H
  refine (hsorted L H).imp ?_
  intro a b hab hb
  rw [hb] at hab
  cases ha : hintKey H a with
  | none => rfl
  | some x => rw [ha] at hab; simp [keyGe] at hab

/-- C7: `order` returns a permutation of its input, is stable on every
group of items sharing a sort key, and with empty hints returns the input
unchanged (FIFO fallback). -/
theorem C7_order_permutation_stable :
    (∀ (L : List WorkItem) (H : List (String × Nat)), (order L H).Perm L)
    ∧ (∀ (L : List WorkItem) (H : List (String × Nat)) (v : Option Nat),
      (order L H).filter (fun t => hintKey H t == v)
        = L.filter (fun t => hintKey H t == v))
    ∧ (∀ L : List WorkItem, order L [] = L) := by
  refine ⟨fun L H => List.perm_insertionSort _ L, ?_, ?_⟩
  · intro L H v
    set p : WorkItem → Bool := fun t => hintKey H t == v with hp
    have hmemp : ∀ t, p t = true → hintKey H t = v := by
      intro t ht
      simpa [hp] using ht
    have hpair : (L.filter p).Pairwise
        (fun a b => keyGe (hintKey H a) (hintKey H b) = true) := by
      have hall : ∀ a ∈ L.filter p, ∀ b ∈ L.filter p,
          keyGe (hintKey H a) (hintKey H b) = true := by
        intro a ha b hb
        rw [hmemp a (List.of_mem_filter ha), hmemp b (List.of_mem_filter hb)]
        exact keyGe_refl v
      exact List.pairwise_of_forall_mem_list hall
    have hsub : (L.filter p).Sublist (order L H) :=
      List.sublist_insertionSort hpair (List.filter_sublist L)
    have hsub2 : (L.filter p).Sublist ((order L H).filter p) := by
      have hself : (L.filter p).filter p = L.filter p :=
        List.filter_eq_self.mpr (fun a ha => List.mem_filter.mp ha |>.2)
      have h2 := List.Sublist.filter p hsub
      rwa [hself] at h2
    have hperm : ((order L H).filter p).Perm (L.filter p) :=
      (List.perm_insertionSort _ L).filter p
    exact (hsub2.eq_of_length hperm.length_eq.symm).symm
  · intro L
    apply List.Sorted.insertionSort_eq
    have hall : ∀ a ∈ L, ∀ b ∈ L,
        keyGe (hintKey [] a) (hintKey [] b) = true := by
      intro a _ b _
      rfl
    exact List.pairwise_of_forall_mem_list hall

/-- C8: loading hints from records in which a task identifier repeats
yields the maximum of its recorded runtimes — in general `hintOf` after
`load_hints` equals the spec-side maximum, and the spec's example
`t: 200, 500, 300` loads as `t: 500`. -/
theorem C8_load_hints_max :
    (∀ (records : List (String × Nat)) (tid : String),
      hintOf (load_hints records) tid = maxRuntimeSpec records tid)
    ∧ hintOf (load_hints [("t", 200), ("t", 500), ("t", 300)]) "t" = some 500 := by
  constructor
  · intro records tid
    rw [load_hints, hintOf_foldl records [] tid, hintOf_nil]
  · decide

/-- C1 counterexample: a candidate obtained from the gold dataset by
renaming its columns only (values unchanged, rows unpermuted) on which
`compare` reports a mismatch: with gold columns `b:[2,1], a:[1,2], d:[5,6]`
the greedy matcher pairs gold `a` with the renamed copy of `b` (their
sorted values coincide), mis-aligning the rows, and the `d` column then
differs after canonical sorting. -/
theorem C1_counterexample :
    (⟨[⟨"b", .nums [2, 1]⟩, ⟨"a", .nums [1, 2]⟩, ⟨"d", .nums [5, 6]⟩]⟩ : DF).renameCols
        (fun s => if s = "b" then "x" else if s = "a" then "y" else "z")
      = ⟨[⟨"x", .nums [2, 1]⟩, ⟨"y", .nums [1, 2]⟩, ⟨"z", .nums [5, 6]⟩]⟩
    ∧ verdict (FuzzyCompare.compare
        ⟨[⟨"b", .nums [2, 1]⟩, ⟨"a", .nums [1, 2]⟩, ⟨"d", .nums [5, 6]⟩]⟩
        ⟨[⟨"x", .nums [2, 1]⟩, ⟨"y", .nums [1, 2]⟩, ⟨"z", .nums [5, 6]⟩]⟩)
      = some false := by
  exact ⟨by decide, by decide⟩

/-- C1 (amended): for every well-formed gold dataset whose distinct columns
are pairwise non-matchable (no two distinct gold columns agree on sorted
values or numeric tolerance), every injective column renaming and every row
permutation, `compare` of the gold against its renamed row-permuted copy
returns a match with no diagnostic; in particular gold `{a: [1,2,3]}`
versus candidate `{x: [3,2,1]}` matches. -/
theorem C1_renamed_permuted_match :
    (∀ (gold : DF) (rn : String → String) (σ : List Nat),
      gold.wf →
      σ.Perm (List.range gold.nrows) →
      (∀ c ∈ gold.cols, ∀ c2 ∈ gold.cols,
        rn c.name = rn c2.name → c.name = c2.name) →
      (∀ c ∈ gold.cols, ∀ c2 ∈ gold.cols, c.name ≠ c2.name →
        matchesCol c.vals c2.vals = false) →
      FuzzyCompare.compare gold ((gold.renameCols rn).permuteRows σ)
        = .ok (true, none))
    ∧ FuzzyCompare.compare ⟨[⟨"a", .nums [1, 2, 3]⟩]⟩
        ⟨[⟨"x", .nums [3, 2, 1]⟩]⟩ = .ok (true, none) := by
  refine ⟨?_, rfl⟩
  intro gold rn σ hwf hσ hinj hdist
  obtain ⟨hlen, hnodup⟩ := hwf
  have hcols := renameCols_permuteRows_cols gold rn σ
  have hσlen : σ.length = gold.nrows := by
    have h := hσ.length_eq
    rwa [List.length_range] at h
  have hnrows : ((gold.renameCols rn).permuteRows σ).nrows = gold.nrows := by
    cases hg : gold.cols with
    | nil => simp [DF.nrows, hcols, hg]
    | cons c cs =>
      have h1 : gold.nrows = c.vals.length := by simp [DF.nrows, hg]
      simp [DF.nrows, hcols, hg, ColVals.permute_length, hσlen, h1]
  have hncols : ((gold.renameCols rn).permuteRows σ).ncols = gold.ncols := by
    simp [DF.ncols, hcols]
  by_cases hempty : gold.isEmptyDF = true
  · have hcempty : ((gold.renameCols rn).permuteRows σ).isEmptyDF = true := by
      rw [DF.isEmptyDF] at hempty ⊢
      rw [Bool.or_eq_true] at hempty ⊢
      cases hempty with
      | inl h =>
        left
        rw [hcols]
        simpa using h
      | inr h =>
        right
        rw [hnrows]
        exact h
    rw [FuzzyCompare.compare, if_pos (by rw [hempty, hcempty]; rfl)]
  · have hempf : gold.isEmptyDF = false := Bool.eq_false_iff.mpr hempty
    have hperm : (sortColsByName gold.cols).Perm gold.cols :=
      List.perm_insertionSort _ _
    have hsub : ∀ g ∈ sortColsByName gold.cols, g ∈ gold.cols :=
      fun g hg => hperm.mem_iff.mp hg
    rw [FuzzyCompare.compare,
      if_neg (show ¬ (gold.isEmptyDF
        && ((gold.renameCols rn).permuteRows σ).isEmptyDF) = true by
        simp [hempf]),
      if_neg (show ¬ (gold.nrows ≠ ((gold.renameCols rn).permuteRows σ).nrows)
        from fun hc => hc hnrows.symm),
      if_neg (show ¬ (((gold.renameCols rn).permuteRows σ).ncols < gold.ncols) by
        rw [hncols]; exact lt_irrefl _),
      match_columns_rename_permute gold rn σ ⟨hlen, hnodup⟩ hσ hinj hdist]
    dsimp only
    have hrenamed : ((gold.renameCols rn).permuteRows σ).cols.map (fun c =>
        match lookupMapping ((sortColsByName gold.cols).map
          (fun g => (rn g.name, g.name))) c.name with
        | some gn => { c with name := gn }
        | none => c)
        = gold.cols.map (fun c => { c with vals := c.vals.permute σ }) := by
      rw [hcols, List.map_map]
      refine List.map_congr_left ?_
      intro c hcmem
      have hlook : lookupMapping ((sortColsByName gold.cols).map
          (fun g => (rn g.name, g.name))) (rn c.name) = some c.name :=
        lookupMapping_rename hsub hinj (hperm.mem_iff.mpr hcmem)
      show (match lookupMapping ((sortColsByName gold.cols).map
          (fun g => (rn g.name, g.name))) (rn c.name) with
        | some gn => ({ name := gn, vals := c.vals.permute σ } : Col)
        | none => { name := rn c.name, vals := c.vals.permute σ })
        = { name := c.name, vals := c.vals.permute σ }
      rw [hlook]
    rw [hrenamed]
    have hmapnames : (gold.cols.map
        (fun c => { c with vals := c.vals.permute σ })).map Col.name
        = gold.names := by
      rw [List.map_map]
      rfl
    have hguard : ((List.insertionSort (fun a b => strLe a b = true)
        gold.names).any (fun nm => decide (1 < ((gold.cols.map (fun c =>
          ({ name := c.name, vals := ColVals.permute σ c.vals } : Col))).filter
            (fun c => c.name == nm)).length))) = false := by
      rw [List.any_eq_false]
      intro nm _
      simp only [decide_eq_true_eq, Nat.not_lt]
      apply length_filter_name_le_one
      rw [hmapnames]
      exact hnodup
    rw [hguard, if_neg (fun hc => Bool.false_ne_true hc)]
    have hnperm : (List.insertionSort (fun a b => strLe a b = true)
        gold.names).Perm gold.names := List.perm_insertionSort _ _
    have hsel : (List.insertionSort (fun a b => strLe a b = true)
        gold.names).map (fun nm => ((gold.cols.map
          (fun c => { c with vals := c.vals.permute σ })).find?
            (fun c => c.name == nm)).getD ⟨nm, .nums []⟩)
        = ((List.insertionSort (fun a b => strLe a b = true)
          gold.names).map (fun nm => (gold.cols.find?
            (fun c => c.name == nm)).getD ⟨nm, .nums []⟩)).map
              (fun c => { c with vals := c.vals.permute σ }) := by
      rw [List.map_map]
      refine List.map_congr_left ?_
      intro nm hnm
      have hfm := @find?_name_map (fun c => { c with vals := c.vals.permute σ })
        (fun c => rfl) gold.cols nm
      rw [Function.comp]
      show ((gold.cols.map (fun c => { c with vals := c.vals.permute σ })).find?
        (fun c => c.name == nm)).getD ⟨nm, .nums []⟩
        = { (gold.cols.find? (fun c => c.name == nm)).getD ⟨nm, .nums []⟩ with
            vals := ((gold.cols.find? (fun c => c.name == nm)).getD
              ⟨nm, .nums []⟩).vals.permute σ }
      rw [hfm]
      have hisSome : (gold.cols.find? (fun c => c.name == nm)).isSome = true :=
        find?_name_isSome (show nm ∈ gold.cols.map Col.name from
          hnperm.mem_iff.mp hnm)
      cases hfind : gold.cols.find? (fun c => c.name == nm) with
      | none =>
        rw [List.find?_eq_none] at hfind
        obtain ⟨x, hx, hxn⟩ := List.find?_isSome.mp hisSome
        exact absurd hxn (hfind x hx)
      | some c0 => rfl
    rw [hsel,
      sortRows_toRows_permute ((List.insertionSort
        (fun a b => strLe a b = true) gold.names).map
          (fun nm => (gold.cols.find? (fun c => c.name == nm)).getD
            ⟨nm, .nums []⟩)) hσ,
      if_pos rfl]

/-- C1 witness: the spec's instance — gold `{a: [1,2,3]}` against its
renamed, row-reversed copy `{x: [3,2,1]}` — matches cleanly. -/
theorem C1_renamed_permuted_match_witness :
    ((⟨[⟨"a", .nums [1, 2, 3]⟩]⟩ : DF).renameCols
        (fun _ => "x")).permuteRows [2, 1, 0]
      = ⟨[⟨"x", .nums [3, 2, 1]⟩]⟩
    ∧ FuzzyCompare.compare ⟨[⟨"a", .nums [1, 2, 3]⟩]⟩
        (((⟨[⟨"a", .nums [1, 2, 3]⟩]⟩ : DF).renameCols
          (fun _ => "x")).permuteRows [2, 1, 0])
      = .ok (true, none) :=
  ⟨by decide,
    C1_renamed_permuted_match.1 ⟨[⟨"a", .nums [1, 2, 3]⟩]⟩ (fun _ => "x")
      [2, 1, 0] (by decide) (List.isPerm_iff.mp (by decide))
      (by decide) (by decide)⟩

/-- C6 counterexample: the verdict of `compare` is not independent of the
presentation order of the candidate's columns: the same three columns in
two orders produce a match in one order and a mismatch in the other
(greedy matching claims different copies). -/
theorem C6_counterexample :
    (⟨[⟨"y", .nums [1, 2]⟩, ⟨"x", .nums [2, 1]⟩, ⟨"z", .nums [5, 6]⟩]⟩ : DF).cols.Perm
      (⟨[⟨"x", .nums [2, 1]⟩, ⟨"y", .nums [1, 2]⟩, ⟨"z", .nums [5, 6]⟩]⟩ : DF).cols
    ∧ verdict (FuzzyCompare.compare
        ⟨[⟨"b", .nums [2, 1]⟩, ⟨"a", .nums [1, 2]⟩, ⟨"d", .nums [5, 6]⟩]⟩
        ⟨[⟨"y", .nums [1, 2]⟩, ⟨"x", .nums [2, 1]⟩, ⟨"z", .nums [5, 6]⟩]⟩)
      = some true
    ∧ verdict (FuzzyCompare.compare
        ⟨[⟨"b", .nums [2, 1]⟩, ⟨"a", .nums [1, 2]⟩, ⟨"d", .nums [5, 6]⟩]⟩
        ⟨[⟨"x", .nums [2, 1]⟩, ⟨"y", .nums [1, 2]⟩, ⟨"z", .nums [5, 6]⟩]⟩)
      = some false :=
  ⟨List.isPerm_iff.mp (by decide), by decide, by decide⟩

/-- Helper: the result of `compare` is invariant under permuting the rows
of either input frame. -/
theorem compare_permuteRows :
    ∀ (gold comp : DF) (σ τ : List Nat),
      (∀ c ∈ gold.cols, c.vals.length = gold.nrows) →
      (∀ c ∈ comp.cols, c.vals.length = comp.nrows) →
      σ.Perm (List.range gold.nrows) →
      τ.Perm (List.range comp.nrows) →
      FuzzyCompare.compare (gold.permuteRows σ) (comp.permuteRows τ)
        = FuzzyCompare.compare gold comp := by
  intro gold comp σ τ hglen hclen hσ hτ
  rw [FuzzyCompare.compare, FuzzyCompare.compare,
    isEmptyDF_permuteRows gold hσ, isEmptyDF_permuteRows comp hτ,
    nrows_permuteRows gold hσ, nrows_permuteRows comp hτ,
    ncols_permuteRows gold σ, ncols_permuteRows comp τ,
    names_permuteRows gold σ,
    match_columns_permute gold comp hglen hclen hσ hτ]
  by_cases hemp : (gold.isEmptyDF && comp.isEmptyDF) = true
  · rw [if_pos hemp, if_pos hemp]
  · rw [if_neg hemp, if_neg hemp]
    by_cases hrows : gold.nrows ≠ comp.nrows
    · rw [if_pos hrows, if_pos hrows]
    · rw [if_neg hrows, if_neg hrows]
      by_cases hcls : comp.ncols < gold.ncols
      · rw [if_pos hcls, if_pos hcls]
      · rw [if_neg hcls, if_neg hcls]
        cases hmc : match_columns gold comp with
        | error e => rfl
        | ok mapping =>
          dsimp only
          rw [permuteRows_cols comp τ, permuteRows_cols gold σ]
          set ps : Col → Col := fun c => { c with vals := c.vals.permute σ }
          set pt : Col → Col := fun c => { c with vals := c.vals.permute τ }
          set rf : Col → Col := fun c =>
            match lookupMapping mapping c.name with
            | some gn => { name := gn, vals := c.vals }
            | none => c
          set cN : List String :=
            List.insertionSort (fun a b => strLe a b = true) gold.names
          have hτg : τ.Perm (List.range gold.nrows) := by
            rw [not_ne_iff.mp hrows]
            exact hτ
          have hren : (comp.cols.map pt).map rf = (comp.cols.map rf).map pt := by
            rw [List.map_map, List.map_map]
            refine List.map_congr_left ?_
            intro c _
            show (match lookupMapping mapping c.name with
              | some gn => ({ name := gn, vals := c.vals.permute τ } : Col)
              | none => { name := c.name, vals := c.vals.permute τ })
              = pt (match lookupMapping mapping c.name with
                | some gn => ({ name := gn, vals := c.vals } : Col)
                | none => c)
            cases lookupMapping mapping c.name with
            | none => rfl
            | some gn => rfl
          rw [hren]
          have hany : (cN.any fun n => decide (1 < (List.filter
                (fun c => c.name == n) ((comp.cols.map rf).map pt)).length))
              = (cN.any fun n => decide (1 < (List.filter
                (fun c => c.name == n) (comp.cols.map rf)).length)) := by
            congr 1
            funext n
            have hp : ((fun c : Col => c.name == n) ∘ pt)
                = (fun c : Col => c.name == n) := funext fun c => rfl
            rw [List.filter_map, hp, List.length_map]
          rw [hany]
          have hgrows : toRows (cN.map (fun n =>
              ((gold.cols.map ps).find? (fun c => c.name == n)).getD
                ⟨n, .nums []⟩)) gold.nrows
              = toRows ((cN.map (fun n =>
                (gold.cols.find? (fun c => c.name == n)).getD
                  ⟨n, .nums []⟩)).map ps) gold.nrows :=
            @toRows_sel_map ps (fun c => rfl)
              (fun nm i => by
                show ((ColVals.nums []).permute σ).getV i
                  = (ColVals.nums []).getV i
                rw [permute_nil_getV]
                rfl)
              gold.cols cN gold.nrows
          have hcrows : toRows (cN.map (fun n =>
              (((comp.cols.map rf).map pt).find? (fun c => c.name == n)).getD
                ⟨n, .nums []⟩)) gold.nrows
              = toRows ((cN.map (fun n =>
                ((comp.cols.map rf).find? (fun c => c.name == n)).getD
                  ⟨n, .nums []⟩)).map pt) gold.nrows :=
            @toRows_sel_map pt (fun c => rfl)
              (fun nm i => by
                show ((ColVals.nums []).permute τ).getV i
                  = (ColVals.nums []).getV i
                rw [permute_nil_getV]
                rfl)
              (comp.cols.map rf) cN gold.nrows
          rw [hgrows, hcrows,
            sortRows_toRows_permute (cN.map (fun n =>
              (gold.cols.find? (fun c => c.name == n)).getD ⟨n, .nums []⟩)) hσ,
            sortRows_toRows_permute (cN.map (fun n =>
              ((comp.cols.map rf).find? (fun c => c.name == n)).getD
                ⟨n, .nums []⟩)) hτg]
          have hnum : ∀ j, ((cN.map (fun n =>
              ((gold.cols.map ps).find? (fun c => c.name == n)).getD
                ⟨n, .nums []⟩)).getD j ⟨"", .strs []⟩).vals.isNumeric
              = ((cN.map (fun n =>
                (gold.cols.find? (fun c => c.name == n)).getD
                  ⟨n, .nums []⟩)).getD j ⟨"", .strs []⟩).vals.isNumeric :=
            fun j => @sel_isNumeric_map ps (fun c => rfl)
              (fun c => ColVals.permute_isNumeric c.vals σ) gold.cols cN j
          by_cases hfin : sortRows (toRows (cN.map (fun n =>
              (gold.cols.find? (fun c => c.name == n)).getD
                ⟨n, .nums []⟩)) gold.nrows)
              = sortRows (toRows (cN.map (fun n =>
                ((comp.cols.map rf).find? (fun c => c.name == n)).getD
                  ⟨n, .nums []⟩)) gold.nrows)
          · rw [if_pos hfin, if_pos hfin]
          · rw [if_neg hfin, if_neg hfin]
            rw [scanCols_congr hnum _ _ cN.enum]

/-- C6 (amended): `compare` is a pure deterministic function of its two
input frames: its result is invariant under permuting the rows of either
input, and its verdict is invariant under permuting the columns of a
well-formed gold frame (gold columns are consumed in sorted-name order).
By the counterexample, reordering the candidate frame's columns can
change the verdict. -/
theorem C6_invariance :
    (∀ (gold comp : DF) (σ τ : List Nat),
      (∀ c ∈ gold.cols, c.vals.length = gold.nrows) →
      (∀ c ∈ comp.cols, c.vals.length = comp.nrows) →
      σ.Perm (List.range gold.nrows) →
      τ.Perm (List.range comp.nrows) →
      FuzzyCompare.compare (gold.permuteRows σ) (comp.permuteRows τ)
        = FuzzyCompare.compare gold comp)
    ∧ (∀ (gold gold2 comp : DF),
      (∀ c ∈ gold.cols, c.vals.length = gold.nrows) →
      gold.names.Nodup →
      gold2.cols.Perm gold.cols →
      verdict (FuzzyCompare.compare gold2 comp)
        = verdict (FuzzyCompare.compare gold comp)) :=
  ⟨compare_permuteRows,
    fun _ _ comp hlen hnd hperm => compare_goldPerm_verdict comp hlen hnd hperm⟩

/-- Witness for C6: reversing the rows of both a concrete gold frame and a
concrete candidate frame leaves the comparison result unchanged, and
swapping the two columns of a concrete gold frame leaves the verdict
against a fixed candidate unchanged. -/
theorem C6_invariance_witness :
    (FuzzyCompare.compare
        ((⟨[⟨"a", .nums [1, 2]⟩]⟩ : DF).permuteRows [1, 0])
        ((⟨[⟨"b", .nums [2, 1]⟩]⟩ : DF).permuteRows [1, 0])
      = FuzzyCompare.compare
        (⟨[⟨"a", .nums [1, 2]⟩]⟩ : DF) (⟨[⟨"b", .nums [2, 1]⟩]⟩ : DF))
    ∧ (verdict (FuzzyCompare.compare
        (⟨[⟨"b", .nums [3, 4]⟩, ⟨"a", .nums [1, 2]⟩]⟩ : DF)
        (⟨[⟨"x", .nums [2, 1]⟩, ⟨"y", .nums [4, 3]⟩]⟩ : DF))
      = verdict (FuzzyCompare.compare
        (⟨[⟨"a", .nums [1, 2]⟩, ⟨"b", .nums [3, 4]⟩]⟩ : DF)
        (⟨[⟨"x", .nums [2, 1]⟩, ⟨"y", .nums [4, 3]⟩]⟩ : DF))) :=
  ⟨C6_invariance.1 ⟨[⟨"a", .nums [1, 2]⟩]⟩ ⟨[⟨"b", .nums [2, 1]⟩]⟩
      [1, 0] [1, 0] (by decide) (by decide)
      (List.isPerm_iff.mp (by decide)) (List.isPerm_iff.mp (by decide)),
    C6_invariance.2 ⟨[⟨"a", .nums [1, 2]⟩, ⟨"b", .nums [3, 4]⟩]⟩
      ⟨[⟨"b", .nums [3, 4]⟩, ⟨"a", .nums [1, 2]⟩]⟩
      ⟨[⟨"x", .nums [2, 1]⟩, ⟨"y", .nums [4, 3]⟩]⟩
      (by decide) (by decide) (List.isPerm_iff.mp (by decide))⟩

/-- C4: for a numeric gold column against a numeric candidate column,
`FuzzyCompare.compare` matches whenever the independently ascending-sorted values are
element-wise equal under `|a - b| <= atol + rtol * |b|` with
`atol = rtol = 1e-5`; in particular gold `[1.000001]` versus candidate
`[1.0]` matches and gold `[1.1]` versus candidate `[1.0]` does not. -/
theorem C4_numeric_tolerance :
    (∀ (gn cn : String) (gs cs : List ℚ),
      gs.length = cs.length →
      (∀ i, i < gs.length →
        |(sortedQ gs).getD i 0 - (sortedQ cs).getD i 0|
          ≤ 1/100000 + 1/100000 * |(sortedQ cs).getD i 0|) →
      FuzzyCompare.compare ⟨[⟨gn, .nums gs⟩]⟩ ⟨[⟨cn, .nums cs⟩]⟩ = .ok (true, none))
    ∧ verdict (FuzzyCompare.compare ⟨[⟨"a", .nums [Rat.mk' 1000001 1000000]⟩]⟩
        ⟨[⟨"a", .nums [1]⟩]⟩) = some true
    ∧ verdict (FuzzyCompare.compare ⟨[⟨"a", .nums [Rat.mk' 11 10]⟩]⟩
        ⟨[⟨"a", .nums [1]⟩]⟩) = some false := by
  refine ⟨?_, by decide, by decide⟩
  intro gn cn gs cs hlen hclose
  have hall : allClose (sortedQ gs) (sortedQ cs) = true := by
    rw [allClose_iff]
    constructor
    · rw [sortedQ, sortedQ, List.length_insertionSort,
        List.length_insertionSort, hlen]
    · intro i hi
      rw [closeQ_iff]
      apply hclose
      rwa [sortedQ, List.length_insertionSort] at hi
  by_cases h0 : gs.length = 0
  · have hgs : gs = [] := List.length_eq_zero.mp h0
    have hcs : cs = [] := List.length_eq_zero.mp (hlen ▸ h0)
    subst hgs
    subst hcs
    rfl
  · have hm : matchesCol (.nums gs) (.nums cs) = true := by
      simp [matchesCol, typesOk, tolMatch, hall]
    have hmc : match_columns ⟨[⟨gn, .nums gs⟩]⟩ ⟨[⟨cn, .nums cs⟩]⟩
        = .ok [(cn, gn)] := by
      simp [match_columns, sortColsByName, matchColumnsAux, findMatch, hm,
        DF.names]
    have hnr : (⟨[⟨gn, .nums gs⟩]⟩ : DF).nrows = gs.length := rfl
    have hemp : ((⟨[⟨gn, .nums gs⟩]⟩ : DF).isEmptyDF
        && (⟨[⟨cn, .nums cs⟩]⟩ : DF).isEmptyDF) ≠ true := by
      simp [DF.isEmptyDF, DF.nrows, ColVals.length, h0]
    rw [FuzzyCompare.compare, if_neg hemp,
      if_neg (by
        show ¬ ((⟨[⟨gn, .nums gs⟩]⟩ : DF).nrows
          ≠ (⟨[⟨cn, .nums cs⟩]⟩ : DF).nrows)
        simp [DF.nrows, ColVals.length, hlen]),
      if_neg (by
        show ¬ ((⟨[⟨cn, .nums cs⟩]⟩ : DF).ncols
          < (⟨[⟨gn, .nums gs⟩]⟩ : DF).ncols)
        simp [DF.ncols]),
      hmc]
    have hlook : lookupMapping [(cn, gn)] cn = some gn := by
      simp [lookupMapping]
    have hnames : List.insertionSort (fun a b => strLe a b = true)
        (DF.names ⟨[⟨gn, .nums gs⟩]⟩) = [gn] := rfl
    simp only [hnames, hlook, List.map_cons, List.map_nil]
    have hfil : (List.filter (fun c => c.name == gn)
        [(⟨gn, .nums cs⟩ : Col)]).length = 1 := by
      simp
    rw [if_neg (by simp [hfil])]
    have hfind : (List.find? (fun c => c.name == gn)
        [(⟨gn, .nums cs⟩ : Col)]) = some ⟨gn, .nums cs⟩ := by
      simp
    have hfindg : (List.find? (fun c => c.name == gn)
        [(⟨gn, .nums gs⟩ : Col)]) = some ⟨gn, .nums gs⟩ := by
      simp
    simp only [hfind, hfindg, List.map_cons, List.map_nil, Option.getD_some]
    have hrowsg : sortRows (toRows [⟨gn, ColVals.nums gs⟩]
        (DF.nrows ⟨[⟨gn, .nums gs⟩]⟩))
        = (sortedQ gs).map (fun q => [Val.num q]) := by
      rw [hnr, toRows_single, sortRows_map_num]
    have hrowsc : sortRows (toRows [⟨gn, ColVals.nums cs⟩]
        (DF.nrows ⟨[⟨gn, .nums gs⟩]⟩))
        = (sortedQ cs).map (fun q => [Val.num q]) := by
      have : (⟨[⟨gn, .nums gs⟩]⟩ : DF).nrows = cs.length := by
        rw [hnr, hlen]
      rw [this, toRows_single, sortRows_map_num]
    rw [hrowsg, hrowsc]
    by_cases heq : sortedQ gs = sortedQ cs
    · rw [if_pos (by rw [heq])]
    · have hinj : Function.Injective (fun q : ℚ => [Val.num q]) := by
        intro x y hxy
        simpa using hxy
      rw [if_neg (fun hc => heq (List.map_injective_iff.mpr hinj hc))]
      show scanCols _ _ _ (List.enum [gn]) = _
      have henum : List.enum [gn] = [(0, gn)] := rfl
      rw [henum, scanCols, colOf_map_single, colOf_map_single]
      rw [if_neg (fun hc => heq (List.map_injective_iff.mpr
        (fun x y hxy => by simpa using hxy) hc))]
      rw [if_pos (by
        simp only [List.getD, ColVals.isNumeric, valsClose_map, hall]
        rfl)]
      rfl

/-- C4 witness: two concrete single-column numeric frames within tolerance
at every sorted position compare as a clean match. -/
theorem C4_numeric_tolerance_witness :
    FuzzyCompare.compare ⟨[⟨"g", .nums [1, 2]⟩]⟩ ⟨[⟨"c", .nums [2, 1]⟩]⟩
      = .ok (true, none) :=
  C4_numeric_tolerance.1 "g" "c" [1, 2] [2, 1] rfl (by
    intro i hi
    have h2 : i < 2 := hi
    interval_cases i <;> exact (closeQ_iff _ _).mp (by decide))

/-- C5: a candidate with fewer columns than the gold is an immediate
mismatch, and the concrete extra-column example
`candidate {a, b, c}` versus `gold {a, b}` with `a`, `b` aligned matches
with the fresh-named extra column ignored. -/
theorem C5_column_coverage :
    (∀ gold comp : DF,
      ¬ (gold.isEmptyDF = true ∧ comp.isEmptyDF = true) →
      gold.nrows = comp.nrows →
      comp.ncols < gold.ncols →
      ∃ m, FuzzyCompare.compare gold comp = .ok (false, some m))
    ∧ FuzzyCompare.compare
        ⟨[⟨"a", .nums [1, 2]⟩, ⟨"b", .nums [3, 4]⟩]⟩
        ⟨[⟨"a", .nums [1, 2]⟩, ⟨"b", .nums [3, 4]⟩, ⟨"c", .nums [9, 9]⟩]⟩
      = .ok (true, none) := by
  refine ⟨?_, rfl⟩
  intro gold comp hne hnr hlt
  have hemp : (gold.isEmptyDF && comp.isEmptyDF) ≠ true := by
    intro hc
    rw [Bool.and_eq_true] at hc
    exact hne ⟨hc.1, hc.2⟩
  rw [FuzzyCompare.compare, if_neg hemp,
    if_neg (show ¬ (gold.nrows ≠ comp.nrows) from fun hc => hc hnr),
    if_pos hlt]
  exact ⟨_, rfl⟩

/-- C5 witness: a two-column gold against a one-column candidate of equal
row count is rejected outright. -/
theorem C5_column_coverage_witness :
    ∃ m, FuzzyCompare.compare
      ⟨[⟨"a", .nums [1]⟩, ⟨"b", .nums [2]⟩]⟩ ⟨[⟨"a", .nums [1]⟩]⟩
      = .ok (false, some m) :=
  C5_column_coverage.1
    ⟨[⟨"a", .nums [1]⟩, ⟨"b", .nums [2]⟩]⟩ ⟨[⟨"a", .nums [1]⟩]⟩
    (by decide) rfl (by decide)

/-- C5 counterexample: extra candidate columns are not always ignored and
can make the comparison fail — here the candidate covers the gold column
with its extra column `x`, but its own column named `a` (of the wrong
type, hence unmatched) collides with the gold name during the rename step
and `FuzzyCompare.compare` raises instead of matching; dropping the extra
unmatched column makes the same comparison match. -/
theorem C5_counterexample :
    isErr (FuzzyCompare.compare ⟨[⟨"a", .nums [1]⟩]⟩
      ⟨[⟨"a", .strs ["w"]⟩, ⟨"x", .nums [1]⟩]⟩) = true
    ∧ FuzzyCompare.compare ⟨[⟨"a", .nums [1]⟩]⟩ ⟨[⟨"x", .nums [1]⟩]⟩
      = .ok (true, none) := by
  exact ⟨by decide, rfl⟩

/-- C9: when the environment-setup phase of `perform_task` raises
`TimeoutError` (before the agent command runs), `perform_task` returns an
`AgentResult` with every metric zero and the distinguished
`AGENT_SETUP_TIMEOUT` failure mode, instead of propagating the exception;
likewise when the optional MCP-setup phase times out. -/
theorem C9_setup_timeout :
    (∀ (useMcp : Bool) (parse : String → AgentMetrics) (s : SessionModel),
      s.envSetup = .error .timeoutExc →
      perform_task useMcp parse s
        = .ok ⟨0, 0, 0, 0, 0, 0, some .agentSetupTimeout⟩)
    ∧ (∀ (parse : String → AgentMetrics) (s : SessionModel),
      s.envSetup = .ok () → s.mcpSetup = .error .timeoutExc →
      perform_task true parse s
        = .ok ⟨0, 0, 0, 0, 0, 0, some .agentSetupTimeout⟩) := by
  constructor
  · intro useMcp parse s h
    rw [perform_task, h]
    rfl
  · intro parse s h₁ h₂
    rw [perform_task, h₁, if_pos rfl, h₂]
    rfl

/-- C9 witness: a session whose env-setup times out produces exactly the
zeroed setup-timeout result. -/
theorem C9_setup_timeout_witness :
    perform_task false (fun _ => ⟨0, 0, 0, 0, 0, 0⟩)
      ⟨.error .timeoutExc, .ok (), .ok (), ""⟩
      = .ok ⟨0, 0, 0, 0, 0, 0, some .agentSetupTimeout⟩ :=
  C9_setup_timeout.1 false (fun _ => ⟨0, 0, 0, 0, 0, 0⟩)
    ⟨.error .timeoutExc, .ok (), .ok (), ""⟩ rfl

/-- C10: the default completion predicate returns `False` for every
container and output file, `ClaudeCodeAgent` inherits it unchanged, and
therefore a session poll never completes by predicate — completion is
decided solely by process exit or timeout. -/
theorem C10_default_predicate :
    (∀ (c : Container) (f : String),
      AbstractInstalledAgent.isAgentOutputComplete c f = false)
    ∧ ClaudeCodeAgent.isAgentOutputComplete
        = AbstractInstalledAgent.isAgentOutputComplete
    ∧ (∀ (c : Container) (f : String) (exited : Bool)
        (elapsed minTimeout maxTimeout : Nat),
      sessionPoll exited (ClaudeCodeAgent.isAgentOutputComplete c f)
          elapsed minTimeout maxTimeout ≠ some .completeByPredicate) := by
  refine ⟨fun _ _ => rfl, rfl, ?_⟩
  intro c f exited elapsed minTimeout maxTimeout
  have hp : ClaudeCodeAgent.isAgentOutputComplete c f = false := rfl
  rw [sessionPoll, hp]
  by_cases h₁ : elapsed < minTimeout
  · simp [h₁]
  · by_cases h₂ : exited = true
    · simp [h₁, h₂]
    · by_cases h₃ : maxTimeout ≤ elapsed <;> simp [h₁, h₂, h₃]
